import Mathlib

/-!
Verification of the AUDITIONS-gptaudio repository.

This file shallowly embeds the two source files of the repository,
`audio_analysis_smoke.py` (a command-line tool that sends an audio file to a
remote model and persists the parsed JSON reply) and `gui.py` (a Tkinter GUI
that spawns the tool as a subprocess and streams its stdout into a log), and
proves properties of the embedded definitions.

Machine-level side effects (the network call, the real clock, tkinter) are
modelled by parameters: the reply texts of the two API calls are arbitrary
strings, the clock is an explicit `PyDateTime` value, the file system is a
partial map from paths to contents, and the GUI event loop is a transition
system whose nondeterministic scheduling is an explicit list of choices.
-/

/-- The opening brace character, written via its code point. -/
def lbrace : Char := Char.ofNat 123

/-- The closing brace character, written via its code point. -/
def rbrace : Char := Char.ofNat 125

/-- The backtick character, written via its code point. -/
def backquote : Char := Char.ofNat 96

/-- JSON values as produced by Python's `json.loads`.  Numbers keep their
source lexeme (the tool never computes with them), objects keep their members
in parse order. -/
inductive Json where
  | null
  | bool (b : Bool)
  | num (lexeme : String)
  | str (s : String)
  | arr (elems : List Json)
  | obj (members : List (String × Json))

/-- Whether a parsed value is JSON null, i.e. Python `None`: `json.loads`
returns `None` exactly for the input `null`, and the `__main__` block tests
the parse result with `parsed is None`. -/
def Json.isNull : Json → Bool
  | .null => true
  | _ => false

/-- Whitespace accepted by the JSON grammar (`json.decoder`, space, tab,
newline, carriage return). -/
def jsonWs (c : Char) : Bool :=
  c == ' ' || c == Char.ofNat 9 || c == Char.ofNat 10 || c == Char.ofNat 13

/-- Skip JSON whitespace. -/
def skipJsonWs (cs : List Char) : List Char := cs.dropWhile jsonWs

/-- Decode a single-character JSON string escape (`json.decoder.BACKSLASH`). -/
def jsonEscapeChar (e : Char) : Option Char :=
  if e = '"' then some '"'
  else if e = '\\' then some '\\'
  else if e = '/' then some '/'
  else if e = 'b' then some (Char.ofNat 8)
  else if e = 'f' then some (Char.ofNat 12)
  else if e = 'n' then some (Char.ofNat 10)
  else if e = 'r' then some (Char.ofNat 13)
  else if e = 't' then some (Char.ofNat 9)
  else none

/-- Value of a hexadecimal digit, if any. -/
def hexVal (c : Char) : Option Nat :=
  if '0' ≤ c ∧ c ≤ '9' then some (c.toNat - 48)
  else if 'a' ≤ c ∧ c ≤ 'f' then some (c.toNat - 87)
  else if 'A' ≤ c ∧ c ≤ 'F' then some (c.toNat - 55)
  else none

/-- Scan the body of a JSON string after the opening quote
(`json.decoder.py_scanstring`, strict mode): literal characters up to the
closing quote, backslash escapes, `\uXXXX` escapes, and a hard error on
unescaped control characters. -/
def scanStringBody : Nat → List Char → Except String (List Char × List Char)
  | 0, _ => .error "Recursion limit"
  | _, [] => .error "Unterminated string"
  | fuel + 1, c :: rest =>
    if c = '"' then .ok ([], rest)
    else if c = '\\' then
      match rest with
      | [] => .error "Unterminated string"
      | e :: rest2 =>
        if e = 'u' then
          match rest2 with
          | h1 :: h2 :: h3 :: h4 :: rest3 =>
            match hexVal h1, hexVal h2, hexVal h3, hexVal h4 with
            | some a, some b, some c2, some d =>
              match scanStringBody fuel rest3 with
              | .ok (tail, rem) =>
                .ok (Char.ofNat (((a * 16 + b) * 16 + c2) * 16 + d) :: tail, rem)
              | .error m => .error m
            | _, _, _, _ => .error "Invalid uXXXX escape"
          | _ => .error "Invalid uXXXX escape"
        else
          match jsonEscapeChar e with
          | some d =>
            match scanStringBody fuel rest2 with
            | .ok (tail, rem) => .ok (d :: tail, rem)
            | .error m => .error m
          | none => .error "Invalid escape"
    else if c.toNat < 32 then .error "Invalid control character"
    else
      match scanStringBody fuel rest with
      | .ok (tail, rem) => .ok (c :: tail, rem)
      | .error m => .error m

/-- Longest run of decimal digits at the head. -/
def splitDigits (cs : List Char) : List Char × List Char :=
  (cs.takeWhile Char.isDigit, cs.dropWhile Char.isDigit)

/-- The optional fraction and exponent parts of the number regex of
`json.scanner` (each part is taken only when complete, as regex backtracking
would do). -/
def scanFracExp (acc : List Char) (cs : List Char) : List Char × List Char :=
  let (acc1, cs1) :=
    match cs with
    | '.' :: rest =>
      let (ds, rest2) := splitDigits rest
      if ds = [] then (acc, cs) else (acc ++ '.' :: ds, rest2)
    | _ => (acc, cs)
  match cs1 with
  | e :: rest =>
    if e = 'e' ∨ e = 'E' then
      let (sgn, rest2) :=
        match rest with
        | s :: r2 => if s = '+' ∨ s = '-' then ([s], r2) else (([] : List Char), rest)
        | [] => ([], rest)
      let (ds, rest3) := splitDigits rest2
      if ds = [] then (acc1, cs1) else (acc1 ++ e :: (sgn ++ ds), rest3)
    else (acc1, cs1)
  | [] => (acc1, cs1)

/-- The number regex of `json.scanner`:
an optional minus, `0` or a nonzero digit followed by digits, then optional
fraction and exponent.  Returns the matched lexeme and the rest. -/
def scanNumber (cs : List Char) : Option (List Char × List Char) :=
  let (neg, cs1) :=
    match cs with
    | c :: rest => if c = '-' then ([c], rest) else (([] : List Char), cs)
    | [] => ([], cs)
  match cs1 with
  | c :: rest =>
    if c = '0' then some (scanFracExp (neg ++ [c]) rest)
    else if c.isDigit then
      let (ds, rest2) := splitDigits rest
      some (scanFracExp (neg ++ c :: ds) rest2)
    else none
  | [] => none

/-- If `lit` is a literal head of `cs`, drop it. -/
def dropLit : List Char → List Char → Option (List Char)
  | [], cs => some cs
  | _ :: _, [] => none
  | p :: ps, c :: cs => if c = p then dropLit ps cs else none

mutual

/-- One value of `json.scanner.py_make_scanner`: strings, objects, arrays,
the literal constants (including Python's `NaN`, `Infinity`, `-Infinity`),
and numbers.  Leading whitespace is skipped, which is what every call site in
`json.decoder` does before scanning a value. -/
def scanValue : Nat → List Char → Except String (Json × List Char)
  | 0, _ => .error "Recursion limit"
  | fuel + 1, cs0 =>
    match skipJsonWs cs0 with
    | [] => .error "Expecting value"
    | c :: rest =>
      if c = '"' then
        match scanStringBody (rest.length + 1) rest with
        | .ok (sc, rem) => .ok (.str (String.mk sc), rem)
        | .error m => .error m
      else if c = lbrace then
        match skipJsonWs rest with
        | [] => .error "Expecting property name"
        | c2 :: rest2 =>
          if c2 = rbrace then .ok (.obj [], rest2)
          else
            match scanMembers fuel (c2 :: rest2) with
            | .ok (ms, rem) => .ok (.obj ms, rem)
            | .error m => .error m
      else if c = '[' then
        match skipJsonWs rest with
        | [] => .error "Expecting value"
        | c2 :: rest2 =>
          if c2 = ']' then .ok (.arr [], rest2)
          else
            match scanItems fuel (c2 :: rest2) with
            | .ok (vs, rem) => .ok (.arr vs, rem)
            | .error m => .error m
      else
        match dropLit ['t', 'r', 'u', 'e'] (c :: rest) with
        | some rem => .ok (.bool true, rem)
        | none =>
        match dropLit ['f', 'a', 'l', 's', 'e'] (c :: rest) with
        | some rem => .ok (.bool false, rem)
        | none =>
        match dropLit ['n', 'u', 'l', 'l'] (c :: rest) with
        | some rem => .ok (.null, rem)
        | none =>
        match dropLit ['N', 'a', 'N'] (c :: rest) with
        | some rem => .ok (.num "NaN", rem)
        | none =>
        match dropLit ['I', 'n', 'f', 'i', 'n', 'i', 't', 'y'] (c :: rest) with
        | some rem => .ok (.num "Infinity", rem)
        | none =>
        match dropLit ['-', 'I', 'n', 'f', 'i', 'n', 'i', 't', 'y'] (c :: rest) with
        | some rem => .ok (.num "-Infinity", rem)
        | none =>
        match scanNumber (c :: rest) with
        | some (lex, rem) => .ok (.num (String.mk lex), rem)
        | none => .error "Expecting value"

/-- Members of a JSON object after the opening brace, mirroring
`json.decoder.JSONObject`: a quoted key, whitespace, a colon, a value, then
either a closing brace or a comma and the next key. -/
def scanMembers : Nat → List Char → Except String (List (String × Json) × List Char)
  | 0, _ => .error "Recursion limit"
  | _, [] => .error "Expecting property name"
  | fuel + 1, c :: rest =>
    if c = '"' then
      match scanStringBody (rest.length + 1) rest with
      | .error m => .error m
      | .ok (keyChars, cs1) =>
        match skipJsonWs cs1 with
        | [] => .error "Expecting colon delimiter"
        | c2 :: cs2 =>
          if c2 = ':' then
            match scanValue fuel cs2 with
            | .error m => .error m
            | .ok (v, cs3) =>
              match skipJsonWs cs3 with
              | [] => .error "Expecting comma delimiter"
              | c3 :: cs4 =>
                if c3 = rbrace then .ok ([(String.mk keyChars, v)], cs4)
                else if c3 = ',' then
                  match scanMembers fuel (skipJsonWs cs4) with
                  | .ok (ms, cs5) => .ok ((String.mk keyChars, v) :: ms, cs5)
                  | .error m => .error m
                else .error "Expecting comma delimiter"
          else .error "Expecting colon delimiter"
    else .error "Expecting property name"

/-- Items of a JSON array after the opening bracket, mirroring
`json.decoder.JSONArray`. -/
def scanItems : Nat → List Char → Except String (List Json × List Char)
  | 0, _ => .error "Recursion limit"
  | fuel + 1, cs =>
    match scanValue fuel cs with
    | .error m => .error m
    | .ok (v, cs1) =>
      match skipJsonWs cs1 with
      | [] => .error "Expecting comma delimiter"
      | c :: cs2 =>
        if c = ']' then .ok ([v], cs2)
        else if c = ',' then
          match scanItems fuel cs2 with
          | .ok (vs, cs3) => .ok (v :: vs, cs3)
          | .error m => .error m
        else .error "Expecting comma delimiter"

end

/-- Python's `json.loads`: scan one value and then require only whitespace up
to the end of the string (`json.decoder.JSONDecoder.decode`). -/
def json_loads (s : String) : Except String Json :=
  match scanValue (s.length * 2 + 8) s.toList with
  | .ok (v, rem) => if skipJsonWs rem = [] then .ok v else .error "Extra data"
  | .error m => .error m

/-- Success of an `Except` result as a `Bool`. -/
def exOk {ε α : Type} : Except ε α → Bool
  | .ok _ => true
  | .error _ => false

/-- The depth-scanning loop of `_balanced_json_block`
(audio_analysis_smoke.py lines 68-77): starting from the first brace, track
nesting depth; when depth returns to zero the block up to and including the
closing brace is returned. -/
def scanBlock : List Char → Int → Option (List Char)
  | [], _ => none
  | c :: rest, depth =>
    if c = lbrace then
      match scanBlock rest (depth + 1) with
      | some b => some (c :: b)
      | none => none
    else if c = rbrace then
      if depth = 1 then some [c]
      else
        match scanBlock rest (depth - 1) with
        | some b => some (c :: b)
        | none => none
    else
      match scanBlock rest depth with
      | some b => some (c :: b)
      | none => none

/-- The function `_balanced_json_block` (audio_analysis_smoke.py lines 63-77): `None` when
the string has no opening brace or the scan never returns to depth zero,
otherwise the substring from the first opening brace to the first position
where every opened brace has been closed. -/
def _balanced_json_block (s : String) : Option String :=
  match scanBlock (s.toList.dropWhile (fun c => c != lbrace)) 0 with
  | some b => some (String.mk b)
  | none => none

/-- Whitespace of Python's regex class under `re.UNICODE` restricted to
ASCII: space, tab, newline, carriage return, vertical tab, form feed. -/
def reWsChar (c : Char) : Bool :=
  c == ' ' || c == Char.ofNat 9 || c == Char.ofNat 10 || c == Char.ofNat 13 ||
    c == Char.ofNat 11 || c == Char.ofNat 12

/-- Drop a literal three-backtick fence at the head of the input, if present. -/
def fenceAfter (cs : List Char) : Option (List Char) :=
  match cs with
  | a :: b :: c :: rest =>
    if a = backquote ∧ b = backquote ∧ c = backquote then some rest else none
  | _ => none

/-- The lazy part of the fenced-code regex: the shortest extension of the
group that ends in a closing brace followed by optional whitespace and a
closing fence.  `acc` holds the group consumed so far, reversed. -/
def lazyClose (acc : List Char) : List Char → Option (List Char)
  | [] => none
  | c :: rest =>
    if c = rbrace ∧ (fenceAfter (rest.dropWhile reWsChar)).isSome then
      some ((c :: acc).reverse)
    else lazyClose (c :: acc) rest

/-- Try the regex of audio_analysis_smoke.py line 91 at one start position:
a three-backtick fence, an optional case-insensitive `json` tag, whitespace,
then the lazily-matched brace group, whitespace, and a closing fence. -/
def tryFenceAt (cs : List Char) : Option (List Char) :=
  match fenceAfter cs with
  | none => none
  | some cs1 =>
    let cs2 :=
      match cs1 with
      | a :: b :: c :: d :: rest =>
        if a.toLower = 'j' ∧ b.toLower = 's' ∧ c.toLower = 'o' ∧ d.toLower = 'n' then rest
        else cs1
      | _ => cs1
    match cs2.dropWhile reWsChar with
    | c :: rest => if c = lbrace then lazyClose [c] rest else none
    | [] => none

/-- Search over start positions as `re.search` does, leftmost match first. -/
def reSearchFence : List Char → Option (List Char)
  | [] => none
  | c :: rest =>
    match tryFenceAt (c :: rest) with
    | some g => some g
    | none => reSearchFence rest

/-- Group 1 of `re.search(r"...fence...", text, re.DOTALL | re.IGNORECASE)`
from audio_analysis_smoke.py lines 91-93. -/
def fencedJsonGroup (s : String) : Option String :=
  (reSearchFence s.toList).map String.mk

/-- The fenced-code and failure tail of `parse_json_or_raise`
(audio_analysis_smoke.py lines 90-94). -/
def fencedStep (text : String) : Except String Json :=
  match fencedJsonGroup text with
  | some g => json_loads g
  | none => .error "Could not parse JSON from model output."

/-- The function `parse_json_or_raise` (audio_analysis_smoke.py lines 79-94): direct
`json.loads`, then the balanced brace block (when nonempty, Python's
truthiness test), then the fenced code block, and otherwise a `ValueError`.
An `Except.error` models a raised exception. -/
def parse_json_or_raise (text : String) : Except String Json :=
  match json_loads text with
  | .ok v => .ok v
  | .error _ =>
    match _balanced_json_block text with
    | some block => if block = "" then fencedStep text else json_loads block
    | none => fencedStep text

/-- The wall-clock time passed to `datetime.datetime.now().strftime`. -/
structure PyDateTime where
  year : Nat
  month : Nat
  day : Nat
  hour : Nat
  minute : Nat
  second : Nat

/-- Two-digit zero padding, as `strftime` renders `%m %d %H %M %S`. -/
def pad2 (n : Nat) : String := if n < 10 then "0" ++ toString n else toString n

/-- Four-digit zero padding, as `strftime` renders `%Y`. -/
def pad4 (n : Nat) : String :=
  if n < 10 then "000" ++ toString n
  else if n < 100 then "00" ++ toString n
  else if n < 1000 then "0" ++ toString n
  else toString n

/-- The stamp `now.strftime("%Y-%m-%d_%H-%M-%S")` (audio_analysis_smoke.py line 97). -/
def strftime_stamp (t : PyDateTime) : String :=
  pad4 t.year ++ "-" ++ pad2 t.month ++ "-" ++ pad2 t.day ++ "_" ++
    pad2 t.hour ++ "-" ++ pad2 t.minute ++ "-" ++ pad2 t.second

/-- The function `timestamped_name` (audio_analysis_smoke.py lines 96-98). -/
def timestamped_name (base ext : String) (now : PyDateTime) : String :=
  base ++ "_" ++ strftime_stamp now ++ "." ++ ext

/-- Contents of a written result file: either a JSON payload serialized by
`json.dump` or raw text. -/
inductive FileContent where
  | jsonVal (v : Json)
  | rawText (s : String)

/-- The file system as a partial map from paths to file contents. -/
def Fs : Type := String → Option FileContent

/-- Writing one file. -/
def fsWrite (fs : Fs) (p : String) (c : FileContent) : Fs :=
  fun q => if q = p then some c else fs q

/-- The function `save_json` (audio_analysis_smoke.py lines 100-104): write the payload to
a timestamped `.json` file and return the path. -/
def save_json (payload : Json) (base : String) (now : PyDateTime) (fs : Fs) : String × Fs :=
  let path := timestamped_name base "json" now
  (path, fsWrite fs path (.jsonVal payload))

/-- The function `save_raw_text` (audio_analysis_smoke.py lines 106-110): write the raw
text (`text or ""` equals `text` for every string argument since the falsy
string is the empty string itself) to a timestamped `.txt` file and return
the path. -/
def save_raw_text (text : String) (base : String) (now : PyDateTime) (fs : Fs) : String × Fs :=
  let path := timestamped_name base "txt" now
  (path, fsWrite fs path (.rawText text))

/-- Observable outcome of the `__main__` block after the primary reply text
is in hand: how many continuation requests were issued, the JSON result file
written by `save_json` (path and payload) if any, the raw files written by
`save_raw_text` in order, and the process exit status. -/
structure MainResult where
  contCalls : Nat
  jsonSaved : Option (String × Json)
  rawSaved : List (String × String)
  exitCode : Nat

/-- The `__main__` block of audio_analysis_smoke.py from line 244 on, as a
function of the primary call's `finish_reason`, the primary reply text, the
continuation reply text (inspected only when a continuation is issued), and
the clock.  The script tries to parse the primary text, saving the raw text
only when `parse_json_or_raise` raises; after the try block `parsed is None`
holds either because the parse raised or because it returned Python `None`,
that is JSON null.  The continuation (line 254, `if parsed is None or
finish == "length"`) is therefore issued when the parse raised, when the
parsed value is JSON null, or when `finish == "length"`.  On a continuation
parse failure the raw continuation is saved and the program exits 1;
otherwise `save_json(parsed)` persists the continuation's value (a parsed
null included) or, when no continuation ran, the primary value. -/
def mainAfterReply (finish text text2 : String) (now : PyDateTime) : MainResult :=
  match parse_json_or_raise text with
  | .ok parsed =>
    if parsed.isNull = true ∨ finish = "length" then
      match parse_json_or_raise text2 with
      | .ok p2 =>
        { contCalls := 1
          jsonSaved := some (timestamped_name "analysis_result" "json" now, p2)
          rawSaved := []
          exitCode := 0 }
      | .error _ =>
        { contCalls := 1
          jsonSaved := none
          rawSaved := [(timestamped_name "analysis_result_raw_continuation" "txt" now, text2)]
          exitCode := 1 }
    else
      { contCalls := 0
        jsonSaved := some (timestamped_name "analysis_result" "json" now, parsed)
        rawSaved := []
        exitCode := 0 }
  | .error _ =>
    match parse_json_or_raise text2 with
    | .ok p2 =>
      { contCalls := 1
        jsonSaved := some (timestamped_name "analysis_result" "json" now, p2)
        rawSaved := [(timestamped_name "analysis_result_raw" "txt" now, text)]
        exitCode := 0 }
    | .error _ =>
      { contCalls := 1
        jsonSaved := none
        rawSaved := [(timestamped_name "analysis_result_raw" "txt" now, text),
                     (timestamped_name "analysis_result_raw_continuation" "txt" now, text2)]
        exitCode := 1 }

/-- Result of a function that may call `sys.exit` with a message. -/
inductive ExitOr (α : Type) where
  | exitWith (msg : String)
  | ok (a : α)

/-- Whether the program was terminated by `sys.exit`. -/
def ExitOr.isExit {α : Type} : ExitOr α → Bool
  | .exitWith _ => true
  | .ok _ => false

/-- Split a character list at every slash, keeping empty components. -/
def splitSlash : List Char → List (List Char)
  | [] => [[]]
  | c :: rest =>
    let r := splitSlash rest
    if c = '/' then [] :: r
    else
      match r with
      | a :: as => (c :: a) :: as
      | [] => [[c]]

/-- Python's `pathlib.PurePath.name` on a POSIX path: the last nonempty component. -/
def pyPathName (s : String) : String :=
  String.mk (((splitSlash s.toList).filter (fun p => p ≠ [])).getLastD [])

/-- Index of the last dot in a character list, if any. -/
def lastDotIdx : List Char → Option Nat
  | [] => none
  | c :: rest =>
    match lastDotIdx rest with
    | some i => some (i + 1)
    | none => if c = '.' then some 0 else none

/-- Python's `pathlib.PurePath.suffix`: the part of the name from its last dot on,
provided that dot is neither the first nor the last character of the name. -/
def pySuffix (s : String) : String :=
  let n := (pyPathName s).toList
  match lastDotIdx n with
  | some i => if 0 < i ∧ i < n.length - 1 then String.mk (n.drop i) else ""
  | none => ""

/-- One character of the standard base64 alphabet. -/
def b64Char (n : Nat) : Char :=
  if n < 26 then Char.ofNat (65 + n)
  else if n < 52 then Char.ofNat (97 + (n - 26))
  else if n < 62 then Char.ofNat (48 + (n - 52))
  else if n = 62 then '+'
  else '/'

/-- RFC 4648 base64 of a byte list, three bytes to four characters with `=`
padding, as `base64.b64encode` computes it. -/
def base64Chunks : List Nat → List Char
  | [] => []
  | [a] =>
    let a := a % 256
    [b64Char (a / 4), b64Char (a % 4 * 16), '=', '=']
  | [a, b] =>
    let a := a % 256
    let b := b % 256
    [b64Char (a / 4), b64Char (a % 4 * 16 + b / 16), b64Char (b % 16 * 4), '=']
  | a :: b :: c :: rest =>
    let a2 := a % 256
    let b2 := b % 256
    let c2 := c % 256
    b64Char (a2 / 4) :: b64Char (a2 % 4 * 16 + b2 / 16) ::
      b64Char (b2 % 16 * 4 + c2 / 64) :: b64Char (c2 % 64) :: base64Chunks rest

/-- Python's `base64.b64encode(data).decode("utf-8")`. -/
def base64Encode (bytes : List Nat) : String := String.mk (base64Chunks bytes)

/-- Python's `str.lower` on the characters of a string (ASCII-faithful). -/
def pyLower (s : String) : String := String.mk (s.toList.map Char.toLower)

/-- The format string `p.suffix.lower().lstrip(".")` (audio_analysis_smoke.py line 20). -/
def audioFmt (path : String) : String :=
  String.mk ((pyLower (pySuffix path)).toList.dropWhile (fun c => c == '.'))

/-- The function `encode_audio_for_api` (audio_analysis_smoke.py lines 15-25) over an
explicit file system of byte contents: `sys.exit` when the path has no file,
compute `p.suffix.lower().lstrip(".")`, `sys.exit` unless it is `wav` or
`mp3`, and otherwise return the format together with the base64 text of the
file's bytes. -/
def encode_audio_for_api (fs : String → Option (List Nat)) (path : String) :
    ExitOr (String × String) :=
  match fs path with
  | none => .exitWith ("[!] Audio file not found: " ++ path)
  | some bytes =>
    if audioFmt path = "wav" ∨ audioFmt path = "mp3" then
      .ok (audioFmt path, base64Encode bytes)
    else .exitWith "[!] Use a .wav or .mp3 file for input_audio."

/-- The constant `AUDIO_PATH` (audio_analysis_smoke.py line 7): the file the tool
analyzes, fixed in the configuration block. -/
def AUDIO_PATH : String := "sample.wav"

/-- The audio path `__main__` passes to `encode_audio_for_api`
(audio_analysis_smoke.py line 237).  The script parses no command-line
arguments anywhere, so the analyzed path is `AUDIO_PATH` for every argv. -/
def smokeAnalyzedAudio (argv : List String) : String :=
  match argv with
  | _ => AUDIO_PATH

/-- File name of the script the GUI runs (gui.py line 12,
`RUN_SCRIPT = BASE_DIR / "run.py"`). -/
def RUN_SCRIPT_FILENAME : String := "run.py"

/-- The source files present in this repository. -/
def repoSourceFiles : List String := ["audio_analysis_smoke.py", "gui.py"]

/-- The command line built by `AnalyzerGUI._run_process` (gui.py line 83):
`[sys.executable, "run.py", "--audio", self.audio_path]`. -/
def gui_cmd (pythonExe audioPath : String) : List String :=
  [pythonExe, RUN_SCRIPT_FILENAME, "--audio", audioPath]

/-- The fixed polling interval of the GUI timer (gui.py lines 50 and 118,
`self.root.after(100, self._poll_queue)`), in milliseconds. -/
def POLL_INTERVAL_MS : Nat := 100

/-- The line `_run_process` enqueues after the subprocess exits
(gui.py line 102). -/
def finishLine (code : Int) : String :=
  "\n[process] Finished with exit code " ++ toString code ++ "\n"

/-- The line `_run_process` enqueues when `Popen` raises `FileNotFoundError`
(gui.py line 94). -/
def spawnFailLine : String := "Failed to start python interpreter.\n"

/-- Phase of one worker thread started by `run_analysis`: before `Popen`,
streaming stdout of the live subprocess (with the lines not yet enqueued),
after the subprocess exited but before the finish line is enqueued, and done
(the worker has enqueued its `None` sentinel and returned). -/
inductive WorkerPhase where
  | started (lines : List String) (code : Int)
  | streaming (rest : List String) (code : Int)
  | exitedProc (code : Int)
  | finishedWk
deriving DecidableEq

/-- State of the GUI: the `running` flag, the Run button state, whether an
audio file has been selected, the contents of the log widget, the FIFO
output queue (`None` is the end-of-output sentinel), and the worker threads
started so far. -/
structure GuiState where
  running : Bool
  btnEnabled : Bool
  audioSelected : Bool
  logLines : List String
  outQueue : List (Option String)
  workers : List WorkerPhase
deriving DecidableEq

/-- The initial state built by `AnalyzerGUI.__init__`: not running, Run
button disabled, no file selected, everything empty. -/
def initState : GuiState :=
  { running := false, btnEnabled := false, audioSelected := false
    logLines := [], outQueue := [], workers := [] }

/-- The drain loop of `_poll_queue` (gui.py lines 106-116): pop messages
until the queue is empty; a `None` sentinel clears `running`, re-enables the
Run button and breaks; any other message is appended to the log.  Returns
the remaining queue, the log, and the `running` and button flags. -/
def drainQ : List (Option String) → List String → Bool → Bool →
    List (Option String) × List String × Bool × Bool
  | [], log, r, b => ([], log, r, b)
  | none :: rest, log, _, _ => (rest, log, false, true)
  | some m :: rest, log, r, b => drainQ rest (log ++ [m]) r b

/-- One call of `_poll_queue`: drain the queue and, in the `finally` clause,
reschedule the poll after `POLL_INTERVAL_MS` milliseconds regardless of what
the drain did (gui.py lines 117-118).  The second component is the
rescheduling delay. -/
def pollOnce (g : GuiState) : GuiState × Nat :=
  match drainQ g.outQueue g.logLines g.running g.btnEnabled with
  | (q2, log2, r2, b2) =>
    ({ g with outQueue := q2, logLines := log2, running := r2, btnEnabled := b2 },
      POLL_INTERVAL_MS)

/-- Scheduler choices for the GUI transition system: the user selects a file
(`select_file` with a chosen path), the user clicks Run (`run_analysis`; the
future subprocess output and exit code are chosen here), the worker thread
at an index performs its next step (`Popen` succeeding or raising, emitting
one stdout line, the process exiting, enqueueing the finish line and the
sentinel), or the poll timer fires. -/
inductive GuiChoice where
  | selectFile
  | clickRun (lines : List String) (code : Int)
  | wSpawnOk (i : Nat)
  | wSpawnFail (i : Nat)
  | wAdvance (i : Nat)
  | pollTimer
deriving DecidableEq

/-- One transition of the GUI model.  `ex` is whether `run.py` exists next
to gui.py; `onDisk` is whether the selected audio file still exists when Run
is clicked.  `run_analysis` (gui.py lines 62-80) returns without starting a
worker when the script is missing, no file is selected, `running` is set, or
the file vanished; otherwise it clears the log, sets `running`, disables the
Run button and starts a worker thread.  `select_file` (gui.py lines 52-60)
records the selection and re-enables the Run button unconditionally.
Choices that do not apply in the current state leave it unchanged. -/
def applyStep (ex onDisk : Bool) (c : GuiChoice) (g : GuiState) : GuiState :=
  match c with
  | .selectFile => { g with audioSelected := true, btnEnabled := true }
  | .clickRun lines code =>
    if ex = false then g
    else if g.audioSelected = false then g
    else if g.running then g
    else if onDisk = false then g
    else
      { g with logLines := [], running := true, btnEnabled := false
               workers := g.workers ++ [.started lines code] }
  | .wSpawnOk i =>
    match g.workers[i]? with
    | some (.started lines code) =>
      { g with workers := g.workers.set i (.streaming lines code) }
    | _ => g
  | .wSpawnFail i =>
    match g.workers[i]? with
    | some (.started _ _) =>
      { g with workers := g.workers.set i .finishedWk
               outQueue := g.outQueue ++ [some spawnFailLine, none] }
    | _ => g
  | .wAdvance i =>
    match g.workers[i]? with
    | some (.streaming [] code) =>
      { g with workers := g.workers.set i (.exitedProc code) }
    | some (.streaming (l :: rest) code) =>
      { g with workers := g.workers.set i (.streaming rest code)
               outQueue := g.outQueue ++ [some l] }
    | some (.exitedProc code) =>
      { g with workers := g.workers.set i .finishedWk
               outQueue := g.outQueue ++ [some (finishLine code), none] }
    | _ => g
  | .pollTimer => (pollOnce g).1

/-- Run a list of scheduler choices from a state. -/
def runTrace (ex onDisk : Bool) (cs : List GuiChoice) (g : GuiState) : GuiState :=
  cs.foldl (fun s c => applyStep ex onDisk c s) g

/-- A worker that has not yet returned. -/
def wLive : WorkerPhase → Bool
  | .finishedWk => false
  | _ => true

/-- A worker whose subprocess is spawned and has not exited. -/
def wActive : WorkerPhase → Bool
  | .streaming _ _ => true
  | _ => false

/-- The stdout lines a worker will still enqueue, including the finish line. -/
def wPendingOut : WorkerPhase → List String
  | .started l c => l ++ [finishLine c]
  | .streaming r c => r ++ [finishLine c]
  | .exitedProc c => [finishLine c]
  | .finishedWk => []

/-- Number of opening braces in a character list. -/
def cntL (l : List Char) : Nat := l.countP (fun c => c == lbrace)

/-- Number of closing braces in a character list. -/
def cntR (l : List Char) : Nat := l.countP (fun c => c == rbrace)

/-- Number of workers whose thread has not returned. -/
def liveCount (ws : List WorkerPhase) : Nat := ws.countP wLive

/-- Invariant of the GUI transition system justifying claim C10: at most one
worker is live; the queue is either sentinel-free or ends in the single
sentinel of a worker that has already finished; and when `running` is clear
there is no live worker and the queue is empty. -/
def GInv (g : GuiState) : Prop :=
  liveCount g.workers ≤ 1
  ∧ ((∃ xs : List String, g.outQueue = xs.map some) ∨
     (liveCount g.workers = 0 ∧ ∃ xs : List String, g.outQueue = xs.map some ++ [none]))
  ∧ (g.running = false → liveCount g.workers = 0 ∧ g.outQueue = [])

/-- Invariant of one run for claim C7: there is a single worker, and the log,
the queued messages and the worker's pending output always concatenate to
the full stdout transcript followed by the finish line; the sentinel sits at
the end of the queue exactly when the worker has finished, and `running` is
cleared only after the sentinel is drained, at which point the log is
complete. -/
def C7Inv (lines : List String) (code : Int) (g : GuiState) : Prop :=
  ∃ w, g.workers = [w] ∧
    ((∃ xs : List String, g.outQueue = xs.map some ∧
        g.logLines ++ xs ++ wPendingOut w = lines ++ [finishLine code] ∧
        w ≠ .finishedWk ∧ g.running = true) ∨
     (∃ xs : List String, g.outQueue = xs.map some ++ [none] ∧ w = .finishedWk ∧
        g.logLines ++ xs = lines ++ [finishLine code] ∧ g.running = true) ∨
     (g.outQueue = [] ∧ w = .finishedWk ∧ g.running = false ∧
        g.logLines = lines ++ [finishLine code]))

theorem lbrace_ne_rbrace : lbrace ≠ rbrace := by decide

theorem scanBlock_some (t : List Char) : ∀ (d : Int) (b : List Char),
    scanBlock t d = some b →
    b ≠ [] ∧ (∃ u, t = b ++ u) ∧ (∃ bs, b = bs ++ [rbrace]) ∧
      d + (cntL b : Int) = (cntR b : Int) := by
  induction t with
  | nil => intro d b h; simp [scanBlock] at h
  | cons c rest ih =>
    intro d b h
    unfold scanBlock at h
    by_cases h1 : c = lbrace
    · rw [if_pos h1] at h
      cases heq : scanBlock rest (d + 1) with
      | none => rw [heq] at h; exact absurd h (by simp)
      | some b2 =>
        rw [heq] at h
        simp only [Option.some.injEq] at h
        obtain ⟨hne, ⟨u, hu⟩, ⟨bs, hbs⟩, harith⟩ := ih (d + 1) b2 heq
        subst h
        refine ⟨by simp, ⟨u, by simp [hu]⟩, ⟨c :: bs, by simp [hbs]⟩, ?_⟩
        have hcL : (fun x => x == lbrace) c = true := by simp [h1]
        have hcR : (fun x => x == rbrace) c = false := by
          simp [h1]; exact lbrace_ne_rbrace
        simp only [cntL, cntR, List.countP_cons, hcL, hcR] at harith ⊢
        simp at harith ⊢
        omega
    · rw [if_neg h1] at h
      by_cases h2 : c = rbrace
      · rw [if_pos h2] at h
        by_cases h3 : d = 1
        · rw [if_pos h3] at h
          simp only [Option.some.injEq] at h
          subst h
          refine ⟨by simp, ⟨rest, rfl⟩, ⟨[], by simp [h2]⟩, ?_⟩
          have hcL : (fun x => x == lbrace) c = false := by
            simp [h2]; exact fun hh => lbrace_ne_rbrace hh.symm
          have hcR : (fun x => x == rbrace) c = true := by simp [h2]
          simp only [cntL, cntR, List.countP_cons, hcL, hcR, List.countP_nil]
          simp
          omega
        · rw [if_neg h3] at h
          cases heq : scanBlock rest (d - 1) with
          | none => rw [heq] at h; exact absurd h (by simp)
          | some b2 =>
            rw [heq] at h
            simp only [Option.some.injEq] at h
            obtain ⟨hne, ⟨u, hu⟩, ⟨bs, hbs⟩, harith⟩ := ih (d - 1) b2 heq
            subst h
            refine ⟨by simp, ⟨u, by simp [hu]⟩, ⟨c :: bs, by simp [hbs]⟩, ?_⟩
            have hcL : (fun x => x == lbrace) c = false := by
              simp [h2]; exact fun hh => lbrace_ne_rbrace hh.symm
            have hcR : (fun x => x == rbrace) c = true := by simp [h2]
            simp only [cntL, cntR, List.countP_cons, hcL, hcR] at harith ⊢
            simp at harith ⊢
            omega
      · rw [if_neg h2] at h
        cases heq : scanBlock rest d with
        | none => rw [heq] at h; exact absurd h (by simp)
        | some b2 =>
          rw [heq] at h
          simp only [Option.some.injEq] at h
          obtain ⟨hne, ⟨u, hu⟩, ⟨bs, hbs⟩, harith⟩ := ih d b2 heq
          subst h
          refine ⟨by simp, ⟨u, by simp [hu]⟩, ⟨c :: bs, by simp [hbs]⟩, ?_⟩
          have hcL : (fun x => x == lbrace) c = false := by simp [h1]
          have hcR : (fun x => x == rbrace) c = false := by simp [h2]
          simp only [cntL, cntR, List.countP_cons, hcL, hcR] at harith ⊢
          push_cast at harith ⊢
          omega

theorem scanBlock_some_take (t : List Char) : ∀ (d : Int) (b : List Char) (j : Nat),
    scanBlock t d = some b → 1 ≤ d → j < b.length →
    (cntR (b.take j) : Int) < d + (cntL (b.take j) : Int) := by
  induction t with
  | nil => intro d b j h; simp [scanBlock] at h
  | cons c rest ih =>
    intro d b j h hd hj
    unfold scanBlock at h
    by_cases h1 : c = lbrace
    · rw [if_pos h1] at h
      cases heq : scanBlock rest (d + 1) with
      | none => rw [heq] at h; exact absurd h (by simp)
      | some b2 =>
        rw [heq] at h
        simp only [Option.some.injEq] at h
        subst h
        match j with
        | 0 => simp [cntL, cntR]; omega
        | k + 1 =>
          have hk : k < b2.length := by simpa using hj
          have := ih (d + 1) b2 k heq (by omega) hk
          have hcL : (fun x => x == lbrace) c = true := by simp [h1]
          have hcR : (fun x => x == rbrace) c = false := by
            simp [h1]; exact lbrace_ne_rbrace
          simp only [List.take_succ_cons, cntL, cntR, List.countP_cons, hcL, hcR] at this ⊢
          simp at this ⊢
          omega
    · rw [if_neg h1] at h
      by_cases h2 : c = rbrace
      · rw [if_pos h2] at h
        by_cases h3 : d = 1
        · rw [if_pos h3] at h
          simp only [Option.some.injEq] at h
          subst h
          match j with
          | 0 => simp [cntL, cntR]; omega
        · rw [if_neg h3] at h
          cases heq : scanBlock rest (d - 1) with
          | none => rw [heq] at h; exact absurd h (by simp)
          | some b2 =>
            rw [heq] at h
            simp only [Option.some.injEq] at h
            subst h
            match j with
            | 0 => simp [cntL, cntR]; omega
            | k + 1 =>
              have hk : k < b2.length := by simpa using hj
              have := ih (d - 1) b2 k heq (by omega) hk
              have hcL : (fun x => x == lbrace) c = false := by
                simp [h2]; exact fun hh => lbrace_ne_rbrace hh.symm
              have hcR : (fun x => x == rbrace) c = true := by simp [h2]
              simp only [List.take_succ_cons, cntL, cntR, List.countP_cons, hcL, hcR] at this ⊢
              simp at this ⊢
              omega
      · rw [if_neg h2] at h
        cases heq : scanBlock rest d with
        | none => rw [heq] at h; exact absurd h (by simp)
        | some b2 =>
          rw [heq] at h
          simp only [Option.some.injEq] at h
          subst h
          match j with
          | 0 => simp [cntL, cntR]; omega
          | k + 1 =>
            have hk : k < b2.length := by simpa using hj
            have := ih d b2 k heq hd hk
            have hcL : (fun x => x == lbrace) c = false := by simp [h1]
            have hcR : (fun x => x == rbrace) c = false := by simp [h2]
            simp only [List.take_succ_cons, cntL, cntR, List.countP_cons, hcL, hcR] at this ⊢
            simp at this ⊢
            omega

theorem scanBlock_none_sound (t : List Char) : ∀ (d : Int),
    scanBlock t d = none → 1 ≤ d → ∀ j, j ≤ t.length →
    d + (cntL (t.take j) : Int) ≠ (cntR (t.take j) : Int) := by
  induction t with
  | nil =>
    intro d _ hd j hj
    have : j = 0 := by simpa using hj
    subst this
    simp [cntL, cntR]
    omega
  | cons c rest ih =>
    intro d h hd j hj
    unfold scanBlock at h
    by_cases h1 : c = lbrace
    · rw [if_pos h1] at h
      cases heq : scanBlock rest (d + 1) with
      | some b2 => rw [heq] at h; exact absurd h (by simp)
      | none =>
        match j with
        | 0 => simp [cntL, cntR]; omega
        | k + 1 =>
          have hk : k ≤ rest.length := by simpa using hj
          have := ih (d + 1) heq (by omega) k hk
          have hcL : (fun x => x == lbrace) c = true := by simp [h1]
          have hcR : (fun x => x == rbrace) c = false := by
            simp [h1]; exact lbrace_ne_rbrace
          simp only [List.take_succ_cons, cntL, cntR, List.countP_cons, hcL, hcR] at this ⊢
          simp at this ⊢
          omega
    · rw [if_neg h1] at h
      by_cases h2 : c = rbrace
      · rw [if_pos h2] at h
        by_cases h3 : d = 1
        · rw [if_pos h3] at h; exact absurd h (by simp)
        · rw [if_neg h3] at h
          cases heq : scanBlock rest (d - 1) with
          | some b2 => rw [heq] at h; exact absurd h (by simp)
          | none =>
            match j with
            | 0 => simp [cntL, cntR]; omega
            | k + 1 =>
              have hk : k ≤ rest.length := by simpa using hj
              have := ih (d - 1) heq (by omega) k hk
              have hcL : (fun x => x == lbrace) c = false := by
                simp [h2]; exact fun hh => lbrace_ne_rbrace hh.symm
              have hcR : (fun x => x == rbrace) c = true := by simp [h2]
              simp only [List.take_succ_cons, cntL, cntR, List.countP_cons, hcL, hcR] at this ⊢
              simp at this ⊢
              omega
      · rw [if_neg h2] at h
        cases heq : scanBlock rest d with
        | some b2 => rw [heq] at h; exact absurd h (by simp)
        | none =>
          match j with
          | 0 => simp [cntL, cntR]; omega
          | k + 1 =>
            have hk : k ≤ rest.length := by simpa using hj
            have := ih d heq hd k hk
            have hcL : (fun x => x == lbrace) c = false := by simp [h1]
            have hcR : (fun x => x == rbrace) c = false := by simp [h2]
            simp only [List.take_succ_cons, cntL, cntR, List.countP_cons, hcL, hcR] at this ⊢
            simp at this ⊢
            omega

theorem scanBlock_none_complete (t : List Char) (d : Int)
    (h : ∀ j, j ≤ t.length → d + (cntL (t.take j) : Int) ≠ (cntR (t.take j) : Int)) :
    scanBlock t d = none := by
  cases heq : scanBlock t d with
  | none => rfl
  | some b =>
    obtain ⟨_, ⟨u, hu⟩, _, harith⟩ := scanBlock_some t d b heq
    exfalso
    have hlen : b.length ≤ t.length := by rw [hu]; simp
    have htake : t.take b.length = b := by rw [hu]; simp
    have := h b.length hlen
    rw [htake] at this
    exact this harith

theorem stringMk_eq_empty_iff (l : List Char) : String.mk l = "" ↔ l = [] := by
  constructor
  · intro h
    have := congrArg String.data h
    simpa using this
  · intro h; subst h; rfl

theorem dropWhile_head_not {α : Type} (p : α → Bool) :
    ∀ (l : List α) (c : α) (rest : List α), l.dropWhile p = c :: rest → p c = false := by
  intro l
  induction l with
  | nil => intro c rest h; simp at h
  | cons a tl ih =>
    intro c rest h
    by_cases hp : p a
    · rw [List.dropWhile_cons_of_pos hp] at h
      exact ih c rest h
    · rw [List.dropWhile_cons_of_neg hp] at h
      obtain ⟨rfl, -⟩ := List.cons.inj h
      simpa using hp

theorem head_of_firstBrace (s : String) (c : Char) (rest : List Char)
    (h : s.toList.dropWhile (fun x => x != lbrace) = c :: rest) : c = lbrace := by
  have := dropWhile_head_not (fun x => x != lbrace) s.toList c rest h
  simpa using this

theorem balanced_none_iff_scan (s : String) :
    _balanced_json_block s = none ↔
      scanBlock (s.toList.dropWhile (fun c => c != lbrace)) 0 = none := by
  unfold _balanced_json_block
  cases scanBlock (s.toList.dropWhile (fun c => c != lbrace)) 0 <;> simp

theorem balanced_some_iff_scan (s : String) (b : String) :
    _balanced_json_block s = some b ↔
      ∃ bl, scanBlock (s.toList.dropWhile (fun c => c != lbrace)) 0 = some bl ∧
        b = String.mk bl := by
  unfold _balanced_json_block
  cases h : scanBlock (s.toList.dropWhile (fun c => c != lbrace)) 0 with
  | none => simp
  | some bl =>
    simp only [Option.some.injEq]
    constructor
    · intro hb; exact ⟨bl, rfl, hb.symm⟩
    · rintro ⟨bl2, hbl2, rfl⟩
      rw [hbl2]

theorem scanBlock_cons_lbrace (rest : List Char) :
    scanBlock (lbrace :: rest) 0 =
      (match scanBlock rest 1 with
       | some b => some (lbrace :: b)
       | none => none) := by
  simp only [scanBlock, if_pos rfl]
  norm_num

/-- C9: for every string, `_balanced_json_block` returns `None` when the
string contains no opening brace or when no prefix starting at its first
opening brace closes all opened braces (no nonempty prefix of the text from
the first opening brace has equal brace counts); when it returns a
substring, that substring starts at the input's first opening brace, ends
with a closing brace, has equal counts of opening and closing braces, and
every nonempty proper prefix of it has strictly more opening than closing
braces. -/
theorem C9_balanced_block_spec (s : String) :
    (_balanced_json_block s = none ↔
      ((∀ x ∈ s.toList, x ≠ lbrace) ∨
       ∀ j, 0 < j → j ≤ (s.toList.dropWhile (fun c => c != lbrace)).length →
         cntL ((s.toList.dropWhile (fun c => c != lbrace)).take j) ≠
           cntR ((s.toList.dropWhile (fun c => c != lbrace)).take j)))
    ∧ (∀ b : String, _balanced_json_block s = some b →
        (∃ u v, s.toList = u ++ b.toList ++ v ∧ (∀ x ∈ u, x ≠ lbrace) ∧
          (∃ bs, b.toList = lbrace :: bs)) ∧
        (∃ bs, b.toList = bs ++ [rbrace]) ∧
        cntL b.toList = cntR b.toList ∧
        (∀ j, 0 < j → j < b.toList.length →
          cntR (b.toList.take j) < cntL (b.toList.take j))) := by
  constructor
  · rw [balanced_none_iff_scan]
    cases ht : s.toList.dropWhile (fun c => c != lbrace) with
    | nil =>
      simp only [scanBlock]
      constructor
      · intro _
        left
        intro x hx
        have hall := List.dropWhile_eq_nil_iff.mp ht
        have := hall x hx
        simpa using this
      · intro _; trivial
    | cons c rest =>
      obtain rfl := head_of_firstBrace s c rest ht
      rw [scanBlock_cons_lbrace]
      have hmem : lbrace ∈ s.toList := by
        have hsuf := List.dropWhile_suffix (l := s.toList) (fun c => c != lbrace)
        rw [ht] at hsuf
        exact hsuf.subset (by simp)
      constructor
      · intro hnone
        have hrec : scanBlock rest 1 = none := by
          cases hx : scanBlock rest 1 with
          | none => rfl
          | some b2 => rw [hx] at hnone; simp at hnone
        right
        intro j hj0 hjle
        match j, hj0 with
        | k + 1, _ =>
          have hk : k ≤ rest.length := by simpa using hjle
          have := scanBlock_none_sound rest 1 hrec (by omega) k hk
          have hcL : (fun x => x == lbrace) lbrace = true := by simp
          have hcR : (fun x => x == rbrace) lbrace = false := by
            simp; exact lbrace_ne_rbrace
          simp only [List.take_succ_cons, cntL, cntR, List.countP_cons, hcL, hcR] at this ⊢
          simp at this ⊢
          omega
      · intro hOr
        have hrec : scanBlock rest 1 = none := by
          apply scanBlock_none_complete
          intro k hk
          rcases hOr with hall | hpre
          · exact absurd (hall lbrace hmem) (by simp)
          · have := hpre (k + 1) (by omega) (by simpa using hk)
            have hcL : (fun x => x == lbrace) lbrace = true := by simp
            have hcR : (fun x => x == rbrace) lbrace = false := by
              simp; exact lbrace_ne_rbrace
            simp only [List.take_succ_cons, cntL, cntR, List.countP_cons, hcL, hcR] at this ⊢
            simp at this ⊢
            omega
        rw [hrec]
  · intro b hb
    obtain ⟨bl, hscan, rfl⟩ := (balanced_some_iff_scan s b).mp hb
    obtain ⟨hne, ⟨u2, hu2⟩, ⟨bs, hbs⟩, harith⟩ :=
      scanBlock_some (s.toList.dropWhile (fun c => c != lbrace)) 0 bl hscan
    have htolist : (String.mk bl).toList = bl := rfl
    have hcounts : cntL bl = cntR bl := by
      have : (0 : Int) + (cntL bl : Int) = (cntR bl : Int) := harith
      omega
    cases ht : s.toList.dropWhile (fun c => c != lbrace) with
    | nil => rw [ht] at hscan; simp [scanBlock] at hscan
    | cons c rest =>
      obtain rfl := head_of_firstBrace s c rest ht
      rw [ht] at hscan hu2
      rw [scanBlock_cons_lbrace] at hscan
      cases hx : scanBlock rest 1 with
      | none => rw [hx] at hscan; simp at hscan
      | some bl2 =>
        rw [hx] at hscan
        simp only [Option.some.injEq] at hscan
        have hblform : bl = lbrace :: bl2 := hscan.symm
        refine ⟨?_, ⟨bs, by rw [htolist, hbs]⟩, by rw [htolist]; exact hcounts, ?_⟩
        · refine ⟨s.toList.takeWhile (fun c => c != lbrace), u2, ?_, ?_, ?_⟩
          · rw [htolist]
            conv_lhs => rw [(List.takeWhile_append_dropWhile (p := fun c => c != lbrace)
              (l := s.toList)).symm]
            rw [ht, hu2]
            simp
          · intro x hx2
            have := List.mem_takeWhile_imp hx2
            simpa using this
          · exact ⟨bl2, by rw [htolist, hblform]⟩
        · rw [htolist]
          intro j hj0 hjlt
          match j, hj0 with
          | k + 1, _ =>
            have hk : k < bl2.length := by
              rw [hblform] at hjlt
              simpa using hjlt
            have := scanBlock_some_take rest 1 bl2 k hx (by omega) hk
            have hcL : (fun x => x == lbrace) lbrace = true := by simp
            have hcR : (fun x => x == rbrace) lbrace = false := by
              simp; exact lbrace_ne_rbrace
            rw [hblform]
            simp only [List.take_succ_cons, cntL, cntR, List.countP_cons, hcL, hcR] at this ⊢
            simp at this ⊢
            omega

theorem C9_witness :
    cntL (String.toList "\x7by\x7d") = cntR (String.toList "\x7by\x7d") :=
  ((C9_balanced_block_spec "x\x7by\x7dz").2 "\x7by\x7d" rfl).2.2.1

theorem balanced_some_ne_empty (s b : String) (h : _balanced_json_block s = some b) :
    b ≠ "" := by
  obtain ⟨bl, hscan, rfl⟩ := (balanced_some_iff_scan s b).mp h
  have hne := (scanBlock_some _ _ _ hscan).1
  intro hc
  exact hne ((stringMk_eq_empty_iff bl).mp hc)

/-- C8: if the input text is not valid JSON but `_balanced_json_block` finds
a block, `parse_json_or_raise` returns exactly the result of `json.loads` on
that block, raising that block's decoding error when it is invalid, and
never attempts the fenced-code recovery; hence the fenced-code fallback is
reachable only when no balanced block is found. -/
theorem C8_balanced_shortcircuit : ∀ (s b : String), _balanced_json_block s = some b →
    (∀ v, json_loads s = .ok v → parse_json_or_raise s = .ok v)
    ∧ (∀ e, json_loads s = .error e → parse_json_or_raise s = json_loads b) := by
  intro s b h
  constructor
  · intro v hv
    unfold parse_json_or_raise
    rw [hv]
  · intro e he
    unfold parse_json_or_raise
    rw [he, h]
    show (if b = "" then fencedStep s else json_loads b) = json_loads b
    rw [if_neg (balanced_some_ne_empty s b h)]

theorem C8_witness :
    parse_json_or_raise "x\x7bnope\x7d" = json_loads "\x7bnope\x7d" :=
  (C8_balanced_shortcircuit "x\x7bnope\x7d" "\x7bnope\x7d" rfl).2 "Expecting value" rfl

/-- C3 counterexample: on an input whose balanced brace block is invalid
JSON but whose fenced code block holds a valid JSON object,
`parse_json_or_raise` raises even though one of the three recovery
strategies of the claim would yield valid JSON. -/
theorem C3_counterexample :
    exOk (parse_json_or_raise "\x7bbad\x7d ```\x7b\"a\": 1\x7d```") = false
    ∧ fencedJsonGroup "\x7bbad\x7d ```\x7b\"a\": 1\x7d```" = some "\x7b\"a\": 1\x7d"
    ∧ json_loads "\x7b\"a\": 1\x7d" = .ok (Json.obj [("a", Json.num "1")]) :=
  ⟨rfl, rfl, rfl⟩

/-- C3 (amended): `parse_json_or_raise` returns the parsed value if the
whole string is valid JSON; otherwise, if the string has a balanced
top-level brace block, it returns the result of parsing that block, raising
the block's decoding error on failure without trying the fenced recovery;
only when no balanced block exists does it parse the object of a fenced
code block; it raises `ValueError` when the string is invalid, no block is
found and no fenced match exists. -/
theorem C3_amended_recovery_order : ∀ s : String,
    (∀ v, json_loads s = .ok v → parse_json_or_raise s = .ok v)
    ∧ (∀ e b, json_loads s = .error e → _balanced_json_block s = some b →
        parse_json_or_raise s = json_loads b)
    ∧ (∀ e g, json_loads s = .error e → _balanced_json_block s = none →
        fencedJsonGroup s = some g → parse_json_or_raise s = json_loads g)
    ∧ (∀ e, json_loads s = .error e → _balanced_json_block s = none →
        fencedJsonGroup s = none →
        parse_json_or_raise s = .error "Could not parse JSON from model output.") := by
  intro s
  refine ⟨?_, ?_, ?_, ?_⟩
  · intro v hv
    unfold parse_json_or_raise
    rw [hv]
  · intro e b he hb
    unfold parse_json_or_raise
    rw [he, hb]
    show (if b = "" then fencedStep s else json_loads b) = json_loads b
    rw [if_neg (balanced_some_ne_empty s b hb)]
  · intro e g he hb hg
    unfold parse_json_or_raise fencedStep
    rw [he, hb, hg]
  · intro e he hb hg
    unfold parse_json_or_raise fencedStep
    rw [he, hb, hg]

theorem C3_witness :
    parse_json_or_raise "x\x7bbad\x7d" = json_loads "\x7bbad\x7d" :=
  (C3_amended_recovery_order "x\x7bbad\x7d").2.1 "Expecting value" "\x7bbad\x7d" rfl rfl

theorem isNull_iff (v : Json) : v.isNull = true ↔ v = Json.null := by
  cases v <;> simp [Json.isNull]

/-- C2 counterexample: a primary reply text of valid JSON `null` parses
successfully, yet with `finish_reason = "stop"` the tool still issues a
continuation request, because `json.loads("null")` returns Python `None`
and line 254 tests `parsed is None`; so the continuation is not issued
exactly when the primary text fails to parse or `finish_reason` is
"length". -/
theorem C2_counterexample :
    exOk (parse_json_or_raise "null") = true
    ∧ ("stop" = "length") = False
    ∧ (mainAfterReply "stop" "null" "x" ⟨2025, 1, 2, 3, 4, 5⟩).contCalls = 1 :=
  ⟨rfl, by simp, rfl⟩

/-- C2 (amended): per run, the tool issues at most one continuation
request; it issues it exactly when the primary reply's text fails to parse,
parses to JSON null (Python `None`, which line 254's `parsed is None` test
cannot tell from a parse failure), or the primary `finish_reason` equals
"length"; no second retry occurs, and when the continuation also fails to
parse the raw continuation text is saved and the program exits with
status 1. -/
theorem C2_amended_single_continuation : ∀ (finish text text2 : String) (now : PyDateTime),
    (mainAfterReply finish text text2 now).contCalls ≤ 1
    ∧ ((mainAfterReply finish text text2 now).contCalls = 1 ↔
        (exOk (parse_json_or_raise text) = false ∨
         parse_json_or_raise text = .ok Json.null ∨ finish = "length"))
    ∧ ((exOk (parse_json_or_raise text) = false ∨
        parse_json_or_raise text = .ok Json.null ∨ finish = "length") →
        exOk (parse_json_or_raise text2) = false →
        (mainAfterReply finish text text2 now).exitCode = 1
        ∧ (mainAfterReply finish text text2 now).jsonSaved = none
        ∧ (timestamped_name "analysis_result_raw_continuation" "txt" now, text2) ∈
            (mainAfterReply finish text text2 now).rawSaved) := by
  intro finish text text2 now
  cases hp : parse_json_or_raise text with
  | ok parsed =>
    by_cases hnn : parsed.isNull = true ∨ finish = "length"
    · have hrhs : exOk (Except.ok (ε := String) parsed) = false ∨
          Except.ok (ε := String) parsed = .ok Json.null ∨ finish = "length" := by
        rcases hnn with hnull | hlen
        · exact Or.inr (Or.inl (by rw [(isNull_iff parsed).mp hnull]))
        · exact Or.inr (Or.inr hlen)
      cases hp2 : parse_json_or_raise text2 with
      | ok p2 =>
        simp only [mainAfterReply, hp, hp2, if_pos hnn]
        exact ⟨by norm_num, ⟨fun _ => hrhs, fun _ => by trivial⟩,
          fun _ h2 => by simp [exOk] at h2⟩
      | error e2 =>
        simp only [mainAfterReply, hp, hp2, if_pos hnn]
        exact ⟨by norm_num, ⟨fun _ => hrhs, fun _ => by trivial⟩,
          fun _ _ => ⟨by trivial, by trivial, by simp⟩⟩
    · simp only [mainAfterReply, hp, if_neg hnn]
      have hrhsf : ¬(exOk (Except.ok (ε := String) parsed) = false ∨
          Except.ok (ε := String) parsed = .ok Json.null ∨ finish = "length") := by
        rintro (h | h | h)
        · simp [exOk] at h
        · exact hnn (Or.inl ((isNull_iff parsed).mpr (Except.ok.inj h)))
        · exact hnn (Or.inr h)
      refine ⟨by norm_num, ⟨fun h0 => absurd h0 (by simp), fun hr => absurd hr hrhsf⟩,
        fun hr _ => absurd hr hrhsf⟩
  | error e =>
    cases hp2 : parse_json_or_raise text2 with
    | ok p2 =>
      simp only [mainAfterReply, hp, hp2]
      exact ⟨by norm_num, ⟨fun _ => Or.inl rfl, fun _ => by trivial⟩,
        fun _ h2 => by simp [exOk] at h2⟩
    | error e2 =>
      simp only [mainAfterReply, hp, hp2]
      exact ⟨by norm_num, ⟨fun _ => Or.inl rfl, fun _ => by trivial⟩,
        fun _ _ => ⟨by trivial, by trivial, by simp⟩⟩

theorem C2_witness :
    (mainAfterReply "length" "x" "y" ⟨2025, 1, 2, 3, 4, 5⟩).exitCode = 1
    ∧ (mainAfterReply "length" "x" "y" ⟨2025, 1, 2, 3, 4, 5⟩).jsonSaved = none
    ∧ (timestamped_name "analysis_result_raw_continuation" "txt" ⟨2025, 1, 2, 3, 4, 5⟩, "y") ∈
        (mainAfterReply "length" "x" "y" ⟨2025, 1, 2, 3, 4, 5⟩).rawSaved :=
  (C2_amended_single_continuation "length" "x" "y" ⟨2025, 1, 2, 3, 4, 5⟩).2.2
    (Or.inr (Or.inr rfl)) rfl

/-- C1 counterexample: with primary `finish_reason = "length"`, a primary
reply text accepted by `parse_json_or_raise` is not persisted, and the
program exits with status 1, when the continuation text fails to parse. -/
theorem C1_counterexample :
    exOk (parse_json_or_raise "\x7b\"a\": 1\x7d") = true
    ∧ (mainAfterReply "length" "\x7b\"a\": 1\x7d" "no json" ⟨2025, 1, 2, 3, 4, 5⟩).exitCode = 1
    ∧ (mainAfterReply "length" "\x7b\"a\": 1\x7d" "no json" ⟨2025, 1, 2, 3, 4, 5⟩).jsonSaved
        = none :=
  ⟨rfl, rfl, rfl⟩

/-- C1 (amended): a reply text accepted by `parse_json_or_raise` is
persisted as the timestamped JSON result with exit status 0, except when
the parsed primary value is JSON null (indistinguishable from a parse
failure at line 254's `parsed is None` test) or the primary `finish_reason`
is "length": in those cases the tool issues the continuation and persists
the continuation's parsed object instead, a parsed null included, and if
the continuation text fails to parse the run saves the raw continuation and
exits with status 1 without writing a JSON file even though the primary
text parsed.  A parsed continuation reply is always persisted with exit
status 0. -/
theorem C1_amended_persistence : ∀ (finish text text2 : String) (now : PyDateTime),
    (∀ v, parse_json_or_raise text = .ok v → v ≠ Json.null → finish ≠ "length" →
      (mainAfterReply finish text text2 now).jsonSaved =
        some (timestamped_name "analysis_result" "json" now, v)
      ∧ (mainAfterReply finish text text2 now).exitCode = 0)
    ∧ (∀ v2, parse_json_or_raise text2 = .ok v2 →
        (exOk (parse_json_or_raise text) = false ∨
         parse_json_or_raise text = .ok Json.null ∨ finish = "length") →
        (mainAfterReply finish text text2 now).jsonSaved =
          some (timestamped_name "analysis_result" "json" now, v2)
        ∧ (mainAfterReply finish text text2 now).exitCode = 0)
    ∧ (∀ v, parse_json_or_raise text = .ok v → (v = Json.null ∨ finish = "length") →
        exOk (parse_json_or_raise text2) = false →
        (mainAfterReply finish text text2 now).jsonSaved = none
        ∧ (mainAfterReply finish text text2 now).exitCode = 1) := by
  intro finish text text2 now
  cases hp : parse_json_or_raise text with
  | ok parsed =>
    by_cases hnn : parsed.isNull = true ∨ finish = "length"
    · cases hp2 : parse_json_or_raise text2 with
      | ok p2 =>
        simp only [mainAfterReply, hp, hp2, if_pos hnn]
        refine ⟨?_, ?_, ?_⟩
        · intro v hv hvnull hflen
          exfalso
          obtain rfl := Except.ok.inj hv
          rcases hnn with hnull | hlen
          · exact hvnull ((isNull_iff _).mp hnull)
          · exact hflen hlen
        · intro v2 hv2 _
          obtain rfl := Except.ok.inj hv2
          exact ⟨by trivial, by trivial⟩
        · intro v hv hcond h2
          simp [exOk] at h2
      | error e2 =>
        simp only [mainAfterReply, hp, hp2, if_pos hnn]
        refine ⟨?_, ?_, fun v hv hcond _ => ⟨by trivial, by trivial⟩⟩
        · intro v hv hvnull hflen
          exfalso
          obtain rfl := Except.ok.inj hv
          rcases hnn with hnull | hlen
          · exact hvnull ((isNull_iff _).mp hnull)
          · exact hflen hlen
        · intro v2 hv2 _
          exact absurd hv2 (by simp)
    · simp only [mainAfterReply, hp, if_neg hnn]
      refine ⟨?_, ?_, ?_⟩
      · intro v hv _ _
        obtain rfl := Except.ok.inj hv
        exact ⟨by trivial, by trivial⟩
      · intro v2 hv2 hcond
        exfalso
        rcases hcond with h | h | h
        · simp [exOk] at h
        · exact hnn (Or.inl ((isNull_iff parsed).mpr (Except.ok.inj h)))
        · exact hnn (Or.inr h)
      · intro v hv hcond _
        exfalso
        obtain rfl := Except.ok.inj hv
        rcases hcond with h | h
        · exact hnn (Or.inl ((isNull_iff _).mpr h))
        · exact hnn (Or.inr h)
  | error e =>
    cases hp2 : parse_json_or_raise text2 with
    | ok p2 =>
      simp only [mainAfterReply, hp, hp2]
      refine ⟨fun v hv _ _ => absurd hv (by simp), ?_,
        fun v hv _ _ => absurd hv (by simp)⟩
      intro v2 hv2 _
      obtain rfl := Except.ok.inj hv2
      exact ⟨by trivial, by trivial⟩
    | error e2 =>
      simp only [mainAfterReply, hp, hp2]
      exact ⟨fun v hv _ _ => absurd hv (by simp),
        fun v2 hv2 _ => absurd hv2 (by simp),
        fun v hv _ _ => absurd hv (by simp)⟩

theorem C1_witness :
    (mainAfterReply "stop" "\x7b\x7d" "y" ⟨2025, 1, 2, 3, 4, 5⟩).jsonSaved =
      some (timestamped_name "analysis_result" "json" ⟨2025, 1, 2, 3, 4, 5⟩, Json.obj [])
    ∧ (mainAfterReply "stop" "\x7b\x7d" "y" ⟨2025, 1, 2, 3, 4, 5⟩).exitCode = 0 :=
  (C1_amended_persistence "stop" "\x7b\x7d" "y" ⟨2025, 1, 2, 3, 4, 5⟩).1 (Json.obj [])
    rfl (fun h => Json.noConfusion h) (by decide)

theorem dot_append_json : ("." : String) ++ "json" = ".json" := rfl

theorem dot_append_txt : ("." : String) ++ "txt" = ".txt" := rfl

/-- C6: every result file the tool writes is timestamped: `save_json` writes
the payload to a file named `<base>_<YYYY-MM-DD_HH-MM-SS>.json` and returns
that path, and `save_raw_text` writes the raw text to
`<base>_<YYYY-MM-DD_HH-MM-SS>.txt` and returns that path, for every payload,
raw text, base name, time and prior file system; no other path is touched. -/
theorem C6_timestamped_saves : ∀ (payload : Json) (text base base2 : String)
    (now : PyDateTime) (fs : Fs),
    (save_json payload base now fs).1 = base ++ "_" ++ strftime_stamp now ++ ".json"
    ∧ (save_json payload base now fs).2 (save_json payload base now fs).1 =
        some (.jsonVal payload)
    ∧ (save_raw_text text base2 now fs).1 = base2 ++ "_" ++ strftime_stamp now ++ ".txt"
    ∧ (save_raw_text text base2 now fs).2 (save_raw_text text base2 now fs).1 =
        some (.rawText text)
    ∧ (∀ q, q ≠ (save_json payload base now fs).1 →
        (save_json payload base now fs).2 q = fs q) := by
  intro payload text base base2 now fs
  refine ⟨?_, ?_, ?_, ?_, ?_⟩
  · show timestamped_name base "json" now = _
    unfold timestamped_name
    rw [String.append_assoc (base ++ "_" ++ strftime_stamp now) "." "json", dot_append_json]
  · show fsWrite fs (timestamped_name base "json" now) (.jsonVal payload)
        (timestamped_name base "json" now) = some (.jsonVal payload)
    simp [fsWrite]
  · show timestamped_name base2 "txt" now = _
    unfold timestamped_name
    rw [String.append_assoc (base2 ++ "_" ++ strftime_stamp now) "." "txt", dot_append_txt]
  · show fsWrite fs (timestamped_name base2 "txt" now) (.rawText text)
        (timestamped_name base2 "txt" now) = some (.rawText text)
    simp [fsWrite]
  · intro q hq
    show fsWrite fs _ _ _ = _
    simp only [fsWrite, save_json] at hq ⊢
    rw [if_neg hq]

theorem C6_witness :
    (save_json Json.null "analysis_result" ⟨2025, 1, 2, 3, 4, 5⟩ (fun _ => none)).2
        "other.txt" = none ∧
    (save_json Json.null "analysis_result" ⟨2025, 1, 2, 3, 4, 5⟩ (fun _ => none)).1 =
      "analysis_result" ++ "_" ++ strftime_stamp ⟨2025, 1, 2, 3, 4, 5⟩ ++ ".json" := by
  have h := C6_timestamped_saves Json.null "t" "analysis_result" "raw"
    ⟨2025, 1, 2, 3, 4, 5⟩ (fun _ => none)
  exact ⟨(h.2.2.2.2 "other.txt" (by decide)).trans rfl, h.1⟩

theorem lastDotIdx_none (cs : List Char) (h : lastDotIdx cs = none) :
    ∀ x ∈ cs, x ≠ '.' := by
  induction cs with
  | nil => simp
  | cons c rest ih =>
    unfold lastDotIdx at h
    cases hr : lastDotIdx rest with
    | some i => rw [hr] at h; simp at h
    | none =>
      rw [hr] at h
      by_cases hc : c = '.'
      · rw [if_pos hc] at h; simp at h
      · intro x hx
        rcases List.mem_cons.mp hx with rfl | hx2
        · exact hc
        · exact ih hr x hx2

theorem lastDotIdx_some (cs : List Char) : ∀ i, lastDotIdx cs = some i →
    ∃ pre post, cs = pre ++ '.' :: post ∧ pre.length = i ∧ ∀ x ∈ post, x ≠ '.' := by
  induction cs with
  | nil => intro i h; simp [lastDotIdx] at h
  | cons c rest ih =>
    intro i h
    unfold lastDotIdx at h
    cases hr : lastDotIdx rest with
    | some j =>
      rw [hr] at h
      obtain rfl : i = j + 1 := by
        have := Option.some.inj h
        omega
      obtain ⟨pre, post, hsplit, hlen, hpost⟩ := ih j hr
      exact ⟨c :: pre, post, by simp [hsplit], by simp [hlen], hpost⟩
    | none =>
      rw [hr] at h
      by_cases hc : c = '.'
      · rw [if_pos hc] at h
        obtain rfl : i = 0 := by
          have := Option.some.inj h
          omega
        exact ⟨[], rest, by simp [hc], rfl, lastDotIdx_none rest hr⟩
      · rw [if_neg hc] at h; simp at h

theorem pySuffix_shape (path : String) :
    pySuffix path = "" ∨
      ∃ t : List Char, (pySuffix path).toList = '.' :: t ∧ t ≠ [] ∧ ∀ x ∈ t, x ≠ '.' := by
  have hps : pySuffix path =
      (match lastDotIdx (pyPathName path).toList with
       | some i =>
         if 0 < i ∧ i < (pyPathName path).toList.length - 1 then
           String.mk ((pyPathName path).toList.drop i)
         else ""
       | none => "") := rfl
  rw [hps]
  cases hl : lastDotIdx (pyPathName path).toList with
  | none => left; rfl
  | some i =>
    have hred : (match some i with
       | some j =>
         if 0 < j ∧ j < (pyPathName path).toList.length - 1 then
           String.mk ((pyPathName path).toList.drop j)
         else ""
       | none => ("" : String)) =
      (if 0 < i ∧ i < (pyPathName path).toList.length - 1 then
         String.mk ((pyPathName path).toList.drop i)
       else "") := rfl
    rw [hred]
    by_cases hcond : 0 < i ∧ i < (pyPathName path).toList.length - 1
    · right
      rw [if_pos hcond]
      obtain ⟨pre, post, hsplit, hlen, hpost⟩ := lastDotIdx_some _ i hl
      refine ⟨post, ?_, ?_, hpost⟩
      · show (String.mk ((pyPathName path).toList.drop i)).data = '.' :: post
        rw [hsplit, ← hlen]
        exact List.drop_left pre ('.' :: post)
      · intro hpost_nil
        have h2 := hcond.2
        rw [hsplit, hpost_nil] at h2
        simp at h2
        omega
    · left; rw [if_neg hcond]

theorem toNat_ofNat_valid (m : Nat) (h : m.isValidChar) : (Char.ofNat m).toNat = m := by
  simp [Char.ofNat, dif_pos h, Char.ofNatAux, Char.toNat, UInt32.toNat]

theorem toLower_eq_dot {c : Char} (h : c.toLower = '.') : c = '.' := by
  have h2 : (if c.toNat ≥ 65 ∧ c.toNat ≤ 90 then Char.ofNat (c.toNat + 32) else c) = '.' := h
  by_cases hcond : c.toNat ≥ 65 ∧ c.toNat ≤ 90
  · exfalso
    rw [if_pos hcond] at h2
    have h3 := congrArg Char.toNat h2
    rw [toNat_ofNat_valid (c.toNat + 32) (by left; omega)] at h3
    have hd : ('.' : Char).toNat = 46 := rfl
    omega
  · rw [if_neg hcond] at h2
    exact h2

theorem stringMk_inj {a b : List Char} (h : String.mk a = String.mk b) : a = b :=
  congrArg String.data h

theorem string_mk_toList (s : String) : String.mk s.toList = s := rfl

theorem dropWhile_dots_of_no_dots (l : List Char) (h : ∀ x ∈ l, x ≠ '.') :
    l.dropWhile (fun c => c == '.') = l := by
  cases l with
  | nil => rfl
  | cons m0 rest =>
    rw [List.dropWhile_cons_of_neg]
    simpa using h m0 (by simp)

theorem fmt_cases (path : String) :
    (pyLower (pySuffix path) = "" ∧
      (pyLower (pySuffix path)).toList.dropWhile (fun c => c == '.') = [])
    ∨ ∃ mt : List Char, (pyLower (pySuffix path)).toList = '.' :: mt ∧
        (∀ x ∈ mt, x ≠ '.') ∧
        (pyLower (pySuffix path)).toList.dropWhile (fun c => c == '.') = mt := by
  rcases pySuffix_shape path with hemp | ⟨t, ht, htne, htnd⟩
  · left
    rw [hemp]
    exact ⟨rfl, rfl⟩
  · right
    have hdot : ('.' : Char).toLower = '.' := rfl
    have h1 : (pyLower (pySuffix path)).toList = '.' :: t.map Char.toLower := by
      show (pySuffix path).toList.map Char.toLower = '.' :: t.map Char.toLower
      rw [ht]
      simp [hdot]
    have hnd : ∀ x ∈ t.map Char.toLower, x ≠ '.' := by
      intro x hx
      obtain ⟨y, hy, rfl⟩ := List.mem_map.mp hx
      intro hcon
      exact htnd y hy (toLower_eq_dot hcon)
    refine ⟨t.map Char.toLower, h1, hnd, ?_⟩
    rw [h1, List.dropWhile_cons_of_pos (by simp)]
    exact dropWhile_dots_of_no_dots _ hnd

/-- C5: `encode_audio_for_api` terminates the program for every path with no
file or whose lowercased extension is neither `.wav` nor `.mp3`; for every
existing `.wav` or `.mp3` file it returns the lowercased extension without
the dot together with the base64 encoding of the file's bytes. -/
theorem C5_encode_audio : ∀ (fs : String → Option (List Nat)) (path : String),
    ((encode_audio_for_api fs path).isExit = true ↔
      (fs path = none ∨
        (pyLower (pySuffix path) ≠ ".wav" ∧ pyLower (pySuffix path) ≠ ".mp3")))
    ∧ (∀ bytes, fs path = some bytes →
        (pyLower (pySuffix path) = ".wav" ∨ pyLower (pySuffix path) = ".mp3") →
        encode_audio_for_api fs path =
          .ok (String.mk ((pyLower (pySuffix path)).toList.drop 1), base64Encode bytes)) := by
  intro fs path
  cases hfs : fs path with
  | none =>
    refine ⟨?_, ?_⟩
    · simp only [encode_audio_for_api, hfs, ExitOr.isExit]
      constructor
      · intro _; exact Or.inl trivial
      · intro _; trivial
    · intro bytes hbytes _
      exact absurd hbytes (by simp)
  | some bytes0 =>
    have key : (audioFmt path = "wav" ∨ audioFmt path = "mp3") ↔
        (pyLower (pySuffix path) = ".wav" ∨ pyLower (pySuffix path) = ".mp3") := by
      rcases fmt_cases path with ⟨hemp, hdw⟩ | ⟨mt, hmt, hmtnd, hdw⟩
      · have hfmt : audioFmt path = "" := by
          show String.mk ((pyLower (pySuffix path)).toList.dropWhile (fun c => c == '.')) = ""
          rw [hdw]
        rw [hfmt, hemp]
        constructor
        · rintro (h | h) <;> exact absurd h (by decide)
        · rintro (h | h) <;> exact absurd h (by decide)
      · have hfmt : audioFmt path = String.mk mt := by
          show String.mk ((pyLower (pySuffix path)).toList.dropWhile (fun c => c == '.')) =
            String.mk mt
          rw [hdw]
        have hlow : pyLower (pySuffix path) = String.mk ('.' :: mt) := by
          rw [← string_mk_toList (pyLower (pySuffix path)), hmt]
        rw [hfmt, hlow]
        constructor
        · rintro (h | h)
          · left
            have h2 : mt = ['w', 'a', 'v'] := congrArg String.data h
            rw [h2]
          · right
            have h2 : mt = ['m', 'p', '3'] := congrArg String.data h
            rw [h2]
        · rintro (h | h)
          · left
            have h2 : '.' :: mt = ['.', 'w', 'a', 'v'] := congrArg String.data h
            obtain ⟨-, h3⟩ := List.cons.inj h2
            rw [h3]
          · right
            have h2 : '.' :: mt = ['.', 'm', 'p', '3'] := congrArg String.data h
            obtain ⟨-, h3⟩ := List.cons.inj h2
            rw [h3]
    refine ⟨?_, ?_⟩
    · by_cases hw : audioFmt path = "wav" ∨ audioFmt path = "mp3"
      · have henc : encode_audio_for_api fs path =
            .ok (audioFmt path, base64Encode bytes0) := by
          simp only [encode_audio_for_api, hfs, if_pos hw]
        rw [henc]
        simp only [ExitOr.isExit]
        constructor
        · intro hfalse; exact absurd hfalse (by decide)
        · rintro (hnone | ⟨hne1, hne2⟩)
          · exact absurd hnone (by simp)
          · rcases key.mp hw with h | h
            · exact absurd h hne1
            · exact absurd h hne2
      · have henc : encode_audio_for_api fs path =
            .exitWith "[!] Use a .wav or .mp3 file for input_audio." := by
          simp only [encode_audio_for_api, hfs, if_neg hw]
        rw [henc]
        simp only [ExitOr.isExit]
        constructor
        · intro _
          right
          constructor
          · intro hcon; exact hw (key.mpr (Or.inl hcon))
          · intro hcon; exact hw (key.mpr (Or.inr hcon))
        · intro _; trivial
    · intro bytes hbytes hcond
      obtain rfl := Option.some.inj hbytes
      have hw := key.mpr hcond
      have henc : encode_audio_for_api fs path =
          .ok (audioFmt path, base64Encode bytes0) := by
        simp only [encode_audio_for_api, hfs, if_pos hw]
      rw [henc]
      rcases fmt_cases path with ⟨hemp, _⟩ | ⟨mt, hmt, _, hdw⟩
      · rcases hcond with h | h <;> (rw [hemp] at h; exact absurd h (by decide))
      · have hfmt : audioFmt path = String.mk mt := by
          show String.mk ((pyLower (pySuffix path)).toList.dropWhile (fun c => c == '.')) =
            String.mk mt
          rw [hdw]
        rw [hfmt, hmt]
        rfl

theorem C5_witness :
    encode_audio_for_api (fun p => if p = "a/clip.WAV" then some [77, 97] else none)
      "a/clip.WAV" = .ok ("wav", "TWE=") := by
  have h := (C5_encode_audio (fun p => if p = "a/clip.WAV" then some [77, 97] else none)
    "a/clip.WAV").2 [77, 97] rfl (Or.inl (by decide))
  exact h.trans rfl

theorem countP_set_eq {α : Type} (p : α → Bool) :
    ∀ (l : List α) (i : Nat) (x y : α), l[i]? = some y →
    (l.set i x).countP p + (if p y then 1 else 0) =
      l.countP p + (if p x then 1 else 0) := by
  intro l
  induction l with
  | nil => intro i x y h; simp at h
  | cons a tl ih =>
    intro i x y h
    cases i with
    | zero =>
      rw [List.getElem?_cons_zero] at h
      obtain rfl := Option.some.inj h
      simp only [List.set_cons_zero, List.countP_cons]
      omega
    | succ j =>
      rw [List.getElem?_cons_succ] at h
      have := ih j x y h
      simp only [List.set_cons_succ, List.countP_cons]
      omega

theorem mem_of_getElem_opt {α : Type} {l : List α} {i : Nat} {a : α}
    (h : l[i]? = some a) : a ∈ l := by
  obtain ⟨hlt, rfl⟩ := List.getElem?_eq_some_iff.mp h
  exact List.getElem_mem hlt

theorem drainQ_somes (xs : List String) : ∀ (log : List String) (r b : Bool),
    drainQ (xs.map some) log r b = ([], log ++ xs, r, b) := by
  induction xs with
  | nil => intro log r b; simp [drainQ]
  | cons x tl ih =>
    intro log r b
    show drainQ (tl.map some) (log ++ [x]) r b = ([], log ++ x :: tl, r, b)
    rw [ih]
    simp

theorem drainQ_somes_none (xs : List String) (q2 : List (Option String)) :
    ∀ (log : List String) (r b : Bool),
    drainQ (xs.map some ++ none :: q2) log r b = (q2, log ++ xs, false, true) := by
  induction xs with
  | nil => intro log r b; simp [drainQ]
  | cons x tl ih =>
    intro log r b
    show drainQ (tl.map some ++ none :: q2) (log ++ [x]) r b = (q2, log ++ x :: tl, false, true)
    rw [ih]
    simp

theorem liveCount_set (ws : List WorkerPhase) (i : Nat) (w w2 : WorkerPhase)
    (hgi : ws[i]? = some w) :
    liveCount (ws.set i w2) + (if wLive w then 1 else 0) =
      liveCount ws + (if wLive w2 then 1 else 0) :=
  countP_set_eq wLive ws i w2 w hgi

theorem liveCount_pos (ws : List WorkerPhase) (i : Nat) (w : WorkerPhase)
    (hgi : ws[i]? = some w) (hw : wLive w = true) : 1 ≤ liveCount ws := by
  unfold liveCount
  have := List.countP_pos_iff.mpr ⟨w, mem_of_getElem_opt hgi, hw⟩
  omega

theorem GInv_init : GInv initState :=
  ⟨by simp [liveCount, initState], Or.inl ⟨[], rfl⟩,
    fun _ => ⟨by simp [liveCount, initState], rfl⟩⟩

theorem GInv_step (ex onDisk : Bool) (c : GuiChoice) (g : GuiState) (h : GInv g) :
    GInv (applyStep ex onDisk c g) := by
  obtain ⟨h1, h2, h3⟩ := h
  cases c with
  | selectFile => exact ⟨h1, h2, h3⟩
  | clickRun lines code =>
    simp only [applyStep]
    split_ifs with hg1 hg2 hg3 hg4
    · exact ⟨h1, h2, h3⟩
    · exact ⟨h1, h2, h3⟩
    · exact ⟨h1, h2, h3⟩
    · exact ⟨h1, h2, h3⟩
    · have hrunf : g.running = false := by
        cases hr : g.running
        · rfl
        · exact absurd hr hg3
      obtain ⟨hz, hq⟩ := h3 hrunf
      refine ⟨?_, Or.inl ⟨[], by simp [hq]⟩, fun hcontra => by simp at hcontra⟩
      show liveCount (g.workers ++ [.started lines code]) ≤ 1
      unfold liveCount at hz ⊢
      rw [List.countP_append]
      have hone : List.countP wLive [WorkerPhase.started lines code] = 1 := rfl
      rw [hone]
      omega
  | wSpawnOk i =>
    simp only [applyStep]
    cases hgi : g.workers[i]? with
    | none => exact ⟨h1, h2, h3⟩
    | some w =>
      cases w with
      | started l0 c0 =>
        show GInv { g with workers := g.workers.set i (.streaming l0 c0) }
        have hset := liveCount_set g.workers i _ (.streaming l0 c0) hgi
        simp [wLive] at hset
        have hlive_eq : liveCount (g.workers.set i (.streaming l0 c0)) =
            liveCount g.workers := by omega
        refine ⟨by simpa [hlive_eq] using h1, ?_, ?_⟩
        · rcases h2 with hA | ⟨hz, hB⟩
          · exact Or.inl hA
          · exact Or.inr ⟨by rw [hlive_eq]; exact hz, hB⟩
        · intro hrun
          obtain ⟨hz, hq⟩ := h3 hrun
          exact ⟨by rw [hlive_eq]; exact hz, hq⟩
      | streaming l0 c0 => exact ⟨h1, h2, h3⟩
      | exitedProc c0 => exact ⟨h1, h2, h3⟩
      | finishedWk => exact ⟨h1, h2, h3⟩
  | wSpawnFail i =>
    simp only [applyStep]
    cases hgi : g.workers[i]? with
    | none => exact ⟨h1, h2, h3⟩
    | some w =>
      cases w with
      | started l0 c0 =>
        show GInv { g with workers := g.workers.set i .finishedWk,
                           outQueue := g.outQueue ++ [some spawnFailLine, none] }
        have hpos := liveCount_pos g.workers i _ hgi rfl
        have hset := liveCount_set g.workers i _ WorkerPhase.finishedWk hgi
        simp [wLive] at hset
        have hzero : liveCount (g.workers.set i .finishedWk) = 0 := by
          simp only [liveCount] at h1 hpos hset ⊢
          omega
        rcases h2 with ⟨xs, hxs⟩ | ⟨hz, _⟩
        · refine ⟨by rw [hzero]; omega, Or.inr ⟨hzero, xs ++ [spawnFailLine], ?_⟩, ?_⟩
          · show g.outQueue ++ [some spawnFailLine, none] = _
            rw [hxs]
            simp
          · intro hrun
            exact absurd (h3 hrun).1 (by omega)
        · exact absurd hz (by omega)
      | streaming l0 c0 => exact ⟨h1, h2, h3⟩
      | exitedProc c0 => exact ⟨h1, h2, h3⟩
      | finishedWk => exact ⟨h1, h2, h3⟩
  | wAdvance i =>
    simp only [applyStep]
    cases hgi : g.workers[i]? with
    | none => exact ⟨h1, h2, h3⟩
    | some w =>
      cases w with
      | started l0 c0 => exact ⟨h1, h2, h3⟩
      | streaming l0 c0 =>
        cases l0 with
        | nil =>
          show GInv { g with workers := g.workers.set i (.exitedProc c0) }
          have hset := liveCount_set g.workers i _ (.exitedProc c0) hgi
          simp [wLive] at hset
          have hlive_eq : liveCount (g.workers.set i (.exitedProc c0)) =
              liveCount g.workers := by omega
          refine ⟨by simpa [hlive_eq] using h1, ?_, ?_⟩
          · rcases h2 with hA | ⟨hz, hB⟩
            · exact Or.inl hA
            · exact Or.inr ⟨by rw [hlive_eq]; exact hz, hB⟩
          · intro hrun
            obtain ⟨hz, hq⟩ := h3 hrun
            exact ⟨by rw [hlive_eq]; exact hz, hq⟩
        | cons l rest =>
          show GInv { g with workers := g.workers.set i (.streaming rest c0),
                             outQueue := g.outQueue ++ [some l] }
          have hpos := liveCount_pos g.workers i _ hgi rfl
          have hset := liveCount_set g.workers i _ (.streaming rest c0) hgi
          simp [wLive] at hset
          have hlive_eq : liveCount (g.workers.set i (.streaming rest c0)) =
              liveCount g.workers := by omega
          rcases h2 with ⟨xs, hxs⟩ | ⟨hz, _⟩
          · refine ⟨by simpa [hlive_eq] using h1, Or.inl ⟨xs ++ [l], ?_⟩, ?_⟩
            · show g.outQueue ++ [some l] = _
              rw [hxs]
              simp
            · intro hrun
              exact absurd (h3 hrun).1 (by omega)
          · exact absurd hz (by omega)
      | exitedProc c0 =>
        show GInv { g with workers := g.workers.set i .finishedWk,
                           outQueue := g.outQueue ++ [some (finishLine c0), none] }
        have hpos := liveCount_pos g.workers i _ hgi rfl
        have hset := liveCount_set g.workers i _ WorkerPhase.finishedWk hgi
        simp [wLive] at hset
        have hzero : liveCount (g.workers.set i .finishedWk) = 0 := by
          simp only [liveCount] at h1 hpos hset ⊢
          omega
        rcases h2 with ⟨xs, hxs⟩ | ⟨hz, _⟩
        · refine ⟨by rw [hzero]; omega, Or.inr ⟨hzero, xs ++ [finishLine c0], ?_⟩, ?_⟩
          · show g.outQueue ++ [some (finishLine c0), none] = _
            rw [hxs]
            simp
          · intro hrun
            exact absurd (h3 hrun).1 (by omega)
        · exact absurd hz (by omega)
      | finishedWk => exact ⟨h1, h2, h3⟩
  | pollTimer =>
    rcases h2 with ⟨xs, hxs⟩ | ⟨hz, xs, hxs⟩
    · have hpoll : (pollOnce g).1 =
          { g with outQueue := [], logLines := g.logLines ++ xs } := by
        simp [pollOnce, hxs, drainQ_somes]
      show GInv (pollOnce g).1
      rw [hpoll]
      refine ⟨h1, Or.inl ⟨[], rfl⟩, ?_⟩
      intro hrun
      exact ⟨(h3 hrun).1, rfl⟩
    · have hxs2 : g.outQueue = xs.map some ++ none :: [] := hxs
      have hpoll : (pollOnce g).1 =
          { g with outQueue := [], logLines := g.logLines ++ xs,
                   running := false, btnEnabled := true } := by
        simp [pollOnce, hxs2, drainQ_somes_none]
      show GInv (pollOnce g).1
      rw [hpoll]
      exact ⟨h1, Or.inl ⟨[], rfl⟩, fun _ => ⟨hz, rfl⟩⟩

theorem GInv_trace (ex onDisk : Bool) : ∀ (cs : List GuiChoice) (g : GuiState),
    GInv g → GInv (runTrace ex onDisk cs g) := by
  intro cs
  induction cs with
  | nil => intro g h; exact h
  | cons c tl ih =>
    intro g h
    exact ih (applyStep ex onDisk c g) (GInv_step ex onDisk c g h)

/-- C10 counterexample: selecting a file while a run is in progress
re-enables the Run button even though no sentinel has been drained (the
single worker has not even spawned its process, so no sentinel was ever
enqueued); hence the Run button is not re-enabled only when the sentinel is
drained. -/
theorem C10_counterexample :
    (runTrace true true [GuiChoice.selectFile, GuiChoice.clickRun ["x"] 0,
        GuiChoice.selectFile] initState).btnEnabled = true
    ∧ (runTrace true true [GuiChoice.selectFile, GuiChoice.clickRun ["x"] 0,
        GuiChoice.selectFile] initState).running = true
    ∧ (runTrace true true [GuiChoice.selectFile, GuiChoice.clickRun ["x"] 0,
        GuiChoice.selectFile] initState).outQueue = []
    ∧ (runTrace true true [GuiChoice.selectFile, GuiChoice.clickRun ["x"] 0,
        GuiChoice.selectFile] initState).workers = [WorkerPhase.started ["x"] 0] :=
  ⟨rfl, rfl, rfl, rfl⟩

/-- C10 (amended): at most one analysis subprocess is active at a time in
every reachable state; `run_analysis` returns without spawning while the
running flag is set; when it does spawn, the flag is set and the Run button
disabled with the new worker still in its pre-spawn phase; and the running
flag is cleared only by a poll that drains the worker's sentinel, which also
re-enables the Run button — however, selecting a file re-enables the Run
button even during a run, so the button (unlike the flag) is not re-enabled
only at sentinel drain time. -/
theorem C10_amended_single_run : ∀ (ex onDisk : Bool) (cs : List GuiChoice),
    ((runTrace ex onDisk cs initState).workers.countP wActive ≤ 1)
    ∧ (∀ (g : GuiState) (lines : List String) (code : Int), g.running = true →
        applyStep ex onDisk (.clickRun lines code) g = g)
    ∧ (∀ (g : GuiState) (lines : List String) (code : Int),
        ex = true → onDisk = true → g.audioSelected = true → g.running = false →
        (applyStep ex onDisk (.clickRun lines code) g).running = true
        ∧ (applyStep ex onDisk (.clickRun lines code) g).btnEnabled = false
        ∧ (applyStep ex onDisk (.clickRun lines code) g).workers =
            g.workers ++ [.started lines code])
    ∧ (∀ c : GuiChoice, (runTrace ex onDisk cs initState).running = true →
        (applyStep ex onDisk c (runTrace ex onDisk cs initState)).running = false →
        c = .pollTimer
        ∧ (∃ xs : List String,
            (runTrace ex onDisk cs initState).outQueue = xs.map some ++ [none])
        ∧ (applyStep ex onDisk c (runTrace ex onDisk cs initState)).btnEnabled = true
        ∧ (applyStep ex onDisk (.selectFile) (runTrace ex onDisk cs initState)).btnEnabled
            = true) := by
  intro ex onDisk cs
  have hInv := GInv_trace ex onDisk cs initState GInv_init
  obtain ⟨h1, h2, h3⟩ := hInv
  refine ⟨?_, ?_, ?_, ?_⟩
  · calc (runTrace ex onDisk cs initState).workers.countP wActive
        ≤ (runTrace ex onDisk cs initState).workers.countP wLive := by
          apply List.countP_mono_left
          intro x _ hx
          cases x <;> simp_all [wActive, wLive]
      _ ≤ 1 := h1
  · intro g lines code hrun
    simp only [applyStep]
    split_ifs <;> rfl
  · intro g lines code hex honDisk hsel hrun
    simp only [applyStep, hex, hsel, hrun, honDisk]
    exact ⟨rfl, rfl, rfl⟩
  · intro c hrun hrun2
    set gfin := runTrace ex onDisk cs initState with hgfin
    cases c with
    | selectFile =>
      exfalso
      have : (applyStep ex onDisk .selectFile gfin).running = gfin.running := rfl
      rw [hrun2] at this
      rw [hrun] at this
      exact absurd this (by simp)
    | clickRun lines code =>
      exfalso
      revert hrun2
      simp only [applyStep]
      split_ifs <;> simp [hrun]
    | wSpawnOk i =>
      exfalso
      revert hrun2
      simp only [applyStep]
      cases hgi : gfin.workers[i]? with
      | none => simp [hrun]
      | some w => cases w <;> simp [hrun]
    | wSpawnFail i =>
      exfalso
      revert hrun2
      simp only [applyStep]
      cases hgi : gfin.workers[i]? with
      | none => simp [hrun]
      | some w => cases w <;> simp [hrun]
    | wAdvance i =>
      exfalso
      revert hrun2
      simp only [applyStep]
      cases hgi : gfin.workers[i]? with
      | none => simp [hrun]
      | some w =>
        cases w with
        | started l0 c0 => simp [hrun]
        | streaming l0 c0 => cases l0 <;> simp [hrun]
        | exitedProc c0 => simp [hrun]
        | finishedWk => simp [hrun]
    | pollTimer =>
      rcases h2 with ⟨xs, hxs⟩ | ⟨hz, xs, hxs⟩
      · exfalso
        have : (applyStep ex onDisk .pollTimer gfin).running = gfin.running := by
          show (pollOnce gfin).1.running = gfin.running
          simp [pollOnce, hxs, drainQ_somes]
        rw [hrun2, hrun] at this
        exact absurd this (by simp)
      · have hbtn : (applyStep ex onDisk .pollTimer gfin).btnEnabled = true := by
          show (pollOnce gfin).1.btnEnabled = true
          have hxs2 : gfin.outQueue = xs.map some ++ none :: [] := hxs
          simp [pollOnce, hxs2, drainQ_somes_none]
        exact ⟨rfl, ⟨xs, hxs⟩, hbtn, rfl⟩

theorem C10_witness :
    ((runTrace true true [GuiChoice.selectFile, GuiChoice.clickRun ["x"] 0]
        initState).workers.countP wActive ≤ 1)
    ∧ (applyStep true true (GuiChoice.clickRun ["y"] 2)
        { initState with audioSelected := true, btnEnabled := true }).running = true := by
  have h := C10_amended_single_run true true [GuiChoice.selectFile, GuiChoice.clickRun ["x"] 0]
  exact ⟨h.1, (h.2.2.1 { initState with audioSelected := true, btnEnabled := true }
    ["y"] 2 rfl rfl rfl rfl).1⟩

theorem C7Inv_step (lines : List String) (code : Int) (ex onDisk : Bool) (g : GuiState)
    (c : GuiChoice)
    (hc : c = GuiChoice.wSpawnOk 0 ∨ c = GuiChoice.wAdvance 0 ∨ c = GuiChoice.pollTimer)
    (h : C7Inv lines code g) : C7Inv lines code (applyStep ex onDisk c g) := by
  obtain ⟨run, btn, sel, log, q, ws⟩ := g
  obtain ⟨w, hw, hcase⟩ := h
  have hws : ws = [w] := hw
  subst hws
  rcases hc with rfl | rfl | rfl
  · cases w with
    | started l0 c0 =>
      show C7Inv lines code
        { running := run, btnEnabled := btn, audioSelected := sel, logLines := log,
          outQueue := q, workers := [WorkerPhase.streaming l0 c0] }
      rcases hcase with ⟨xs, hq, hsum, hne, hrun⟩ | ⟨xs, hq, hwf, hsum, hrun⟩ |
        ⟨hq, hwf, hrun, hlog⟩
      · exact ⟨.streaming l0 c0, rfl, Or.inl ⟨xs, hq, hsum, by simp, hrun⟩⟩
      · exact absurd hwf (by simp)
      · exact absurd hwf (by simp)
    | streaming l0 c0 => exact ⟨.streaming l0 c0, rfl, hcase⟩
    | exitedProc c0 => exact ⟨.exitedProc c0, rfl, hcase⟩
    | finishedWk => exact ⟨.finishedWk, rfl, hcase⟩
  · cases w with
    | started l0 c0 => exact ⟨.started l0 c0, rfl, hcase⟩
    | streaming l0 c0 =>
      rcases hcase with ⟨xs, hq, hsum, hne, hrun⟩ | ⟨xs, hq, hwf, hsum, hrun⟩ |
        ⟨hq, hwf, hrun, hlog⟩
      · cases l0 with
        | nil =>
          show C7Inv lines code
            { running := run, btnEnabled := btn, audioSelected := sel, logLines := log,
              outQueue := q, workers := [WorkerPhase.exitedProc c0] }
          refine ⟨.exitedProc c0, rfl, Or.inl ⟨xs, hq, ?_, by simp, hrun⟩⟩
          simpa [wPendingOut] using hsum
        | cons m rest =>
          show C7Inv lines code
            { running := run, btnEnabled := btn, audioSelected := sel, logLines := log,
              outQueue := q ++ [some m], workers := [WorkerPhase.streaming rest c0] }
          refine ⟨.streaming rest c0, rfl, Or.inl ⟨xs ++ [m], ?_, ?_, by simp, hrun⟩⟩
          · show q ++ [some m] = (xs ++ [m]).map some
            have hq2 : q = List.map some xs := hq
            rw [hq2]
            simp
          · show log ++ (xs ++ [m]) ++ wPendingOut (.streaming rest c0) = _
            simp only [wPendingOut] at hsum ⊢
            simp only [List.append_assoc, List.cons_append, List.singleton_append] at hsum ⊢
            exact hsum
      · exact absurd hwf (by simp)
      · exact absurd hwf (by simp)
    | exitedProc c0 =>
      rcases hcase with ⟨xs, hq, hsum, hne, hrun⟩ | ⟨xs, hq, hwf, hsum, hrun⟩ |
        ⟨hq, hwf, hrun, hlog⟩
      · show C7Inv lines code
          { running := run, btnEnabled := btn, audioSelected := sel, logLines := log,
            outQueue := q ++ [some (finishLine c0), none],
            workers := [WorkerPhase.finishedWk] }
        refine ⟨.finishedWk, rfl, Or.inr (Or.inl ⟨xs ++ [finishLine c0], ?_, rfl, ?_, hrun⟩)⟩
        · show q ++ [some (finishLine c0), none] = (xs ++ [finishLine c0]).map some ++ [none]
          have hq2 : q = List.map some xs := hq
          rw [hq2]
          simp
        · show log ++ (xs ++ [finishLine c0]) = _
          simp only [wPendingOut] at hsum
          simp only [List.append_assoc, List.cons_append, List.singleton_append] at hsum ⊢
          exact hsum
      · exact absurd hwf (by simp)
      · exact absurd hwf (by simp)
    | finishedWk => exact ⟨.finishedWk, rfl, hcase⟩
  · rcases hcase with ⟨xs, hq, hsum, hne, hrun⟩ | ⟨xs, hq, hwf, hsum, hrun⟩ |
      ⟨hq, hwf, hrun, hlog⟩
    · have hqv : q = xs.map some := hq
      subst hqv
      have heval : (pollOnce
          { running := run, btnEnabled := btn, audioSelected := sel, logLines := log,
            outQueue := xs.map some, workers := [w] }).1 =
          { running := run, btnEnabled := btn, audioSelected := sel,
            logLines := log ++ xs, outQueue := [], workers := [w] } := by
        simp [pollOnce, drainQ_somes]
      show C7Inv lines code (pollOnce _).1
      rw [heval]
      refine ⟨w, rfl, Or.inl ⟨[], rfl, ?_, hne, hrun⟩⟩
      simpa using hsum
    · have hqv : q = xs.map some ++ [none] := hq
      subst hqv
      subst hwf
      have heval : (pollOnce
          { running := run, btnEnabled := btn, audioSelected := sel, logLines := log,
            outQueue := xs.map some ++ [none], workers := [WorkerPhase.finishedWk] }).1 =
          { running := false, btnEnabled := true, audioSelected := sel,
            logLines := log ++ xs, outQueue := [],
            workers := [WorkerPhase.finishedWk] } := by
        have hshape : xs.map some ++ [none] = xs.map some ++ none :: [] := rfl
        simp [pollOnce, hshape, drainQ_somes_none]
      show C7Inv lines code (pollOnce _).1
      rw [heval]
      exact ⟨.finishedWk, rfl, Or.inr (Or.inr ⟨rfl, rfl, rfl, hsum⟩)⟩
    · have hqv : q = [] := hq
      subst hqv
      subst hwf
      have heval : (pollOnce
          { running := run, btnEnabled := btn, audioSelected := sel, logLines := log,
            outQueue := [], workers := [WorkerPhase.finishedWk] }).1 =
          { running := run, btnEnabled := btn, audioSelected := sel,
            logLines := log, outQueue := [],
            workers := [WorkerPhase.finishedWk] } := by
        simp [pollOnce, drainQ]
      show C7Inv lines code (pollOnce _).1
      rw [heval]
      exact ⟨.finishedWk, rfl, Or.inr (Or.inr ⟨rfl, rfl, hrun, hlog⟩)⟩

theorem C7Inv_trace (lines : List String) (code : Int) (ex onDisk : Bool) :
    ∀ (cs : List GuiChoice),
    (∀ c ∈ cs, c = GuiChoice.wSpawnOk 0 ∨ c = GuiChoice.wAdvance 0 ∨
      c = GuiChoice.pollTimer) →
    ∀ (g : GuiState), C7Inv lines code g → C7Inv lines code (runTrace ex onDisk cs g) := by
  intro cs
  induction cs with
  | nil => intro _ g h; exact h
  | cons c tl ih =>
    intro hall g h
    exact ih (fun c2 hc2 => hall c2 (by simp [hc2])) _
      (C7Inv_step lines code ex onDisk g c (hall c (by simp)) h)

/-- C7: in a run whose worker streams the subprocess's stdout lines in
order, every interleaving of worker steps and timer polls that reaches the
drained state (running flag cleared) leaves the log equal to the stdout
lines in the order written followed by the finished-with-exit-code line;
and every poll, including one that finds the queue empty or consumes the
sentinel, reschedules itself after the fixed 100 ms interval. -/
theorem C7_stream_order : ∀ (ex onDisk : Bool) (lines : List String) (code : Int)
    (cs : List GuiChoice),
    (∀ c ∈ cs, c = GuiChoice.wSpawnOk 0 ∨ c = GuiChoice.wAdvance 0 ∨
      c = GuiChoice.pollTimer) →
    (runTrace ex onDisk cs
      { running := true, btnEnabled := false, audioSelected := true,
        logLines := [], outQueue := [], workers := [.started lines code] }).running = false →
    (runTrace ex onDisk cs
      { running := true, btnEnabled := false, audioSelected := true,
        logLines := [], outQueue := [], workers := [.started lines code] }).logLines =
      lines ++ [finishLine code]
    ∧ (∀ g : GuiState, (pollOnce g).2 = POLL_INTERVAL_MS) := by
  intro ex onDisk lines code cs hall hstop
  have hinit : C7Inv lines code
      { running := true, btnEnabled := false, audioSelected := true,
        logLines := [], outQueue := [], workers := [.started lines code] } :=
    ⟨.started lines code, rfl, Or.inl ⟨[], rfl, by simp [wPendingOut], by simp, rfl⟩⟩
  have hfin := C7Inv_trace lines code ex onDisk cs hall _ hinit
  obtain ⟨w, hw, hcase⟩ := hfin
  rcases hcase with ⟨xs, hq, hsum, hne, hrun⟩ | ⟨xs, hq, hwf, hsum, hrun⟩ |
    ⟨hq, hwf, hrun2, hlog⟩
  · rw [hstop] at hrun
    exact absurd hrun (by simp)
  · rw [hstop] at hrun
    exact absurd hrun (by simp)
  · exact ⟨hlog, fun g => rfl⟩

theorem C7_witness :
    (runTrace true true [GuiChoice.wSpawnOk 0, GuiChoice.wAdvance 0, GuiChoice.wAdvance 0,
        GuiChoice.wAdvance 0, GuiChoice.pollTimer]
      { running := true, btnEnabled := false, audioSelected := true, logLines := [],
        outQueue := [], workers := [WorkerPhase.started ["a"] 0] }).logLines =
      ["a"] ++ [finishLine 0] :=
  (C7_stream_order true true ["a"] 0
    [GuiChoice.wSpawnOk 0, GuiChoice.wAdvance 0, GuiChoice.wAdvance 0,
      GuiChoice.wAdvance 0, GuiChoice.pollTimer] (by decide) rfl).1

/-- C4: the GUI does not spawn the repository's command-line tool on the
selected file.  The command built by `_run_process` names `run.py`, which is
not a source file of this repository — so within this repository clicking
Run never spawns anything (`run_analysis` returns at the missing-script
check) — and the repository's command-line tool `audio_analysis_smoke.py`
ignores its command line entirely and analyzes the fixed `AUDIO_PATH`
`"sample.wav"`, not the selected file.  Evaluation at the failing input: the
user selects `/tmp/voice.wav` and clicks Run. -/
theorem C4_gui_spawn_mismatch :
    gui_cmd "python" "/tmp/voice.wav" = ["python", "run.py", "--audio", "/tmp/voice.wav"]
    ∧ (RUN_SCRIPT_FILENAME ∈ repoSourceFiles) = False
    ∧ smokeAnalyzedAudio ["--audio", "/tmp/voice.wav"] = "sample.wav"
    ∧ ("sample.wav" = "/tmp/voice.wav") = False
    ∧ (∀ (g : GuiState) (lines : List String) (code : Int),
        applyStep false true (.clickRun lines code) g = g) := by
  refine ⟨rfl, by simp [RUN_SCRIPT_FILENAME, repoSourceFiles], rfl,
    by simp, ?_⟩
  intro g lines code
  rfl
